import Mathlib

/-!
Verification of the core algorithms of the epics-analyzer repository.

This file gives a shallow embedding, in Lean 4, of the issue-tree builder
(src/utils/jira_tree_classes.py), the activity aggregator
(src/utils/project_data_provider.py), and the status, backlog and
time-creep analyzers (src/features/status_analyzer.py,
src/features/backlog_analyzer.py, src/features/time_creep_analyzer.py),
together with theorems settling the behavioural claims made about them.

Modelling conventions:
* Python dicts that are only read through lookup are modelled as
  association lists, with first-match lookup.
* The JSON issue store (a directory of per-issue files read through
  find_json_for_key plus read_jira_issue) is modelled as an association
  list from issue key to parsed record; a lookup miss models both a
  missing file and an unreadable one.
* Python strings are compared lexicographically by code point, which is
  exactly what the source relies on when it sorts by the raw ISO
  timestamp string; this order is implemented here on the character
  lists underlying Lean strings so that all comparisons compute.
* Python list.sort and sorted are stable ascending sorts; they are
  modelled by a stable insertion sort.
* Recursive traversals are written with an explicit fuel parameter so
  that every definition is structurally recursive and computable by the
  kernel; theorems are proved under a fuel-adequacy hypothesis that the
  chosen fuel always satisfies, and fuel irrelevance is proved
  separately.
-/

namespace EpicsAnalyzer

/-- Lexicographic code-point order on character lists: the order Python
uses when comparing strings. -/
def listLexLe : List Char → List Char → Bool
  | [], _ => true
  | _ :: _, [] => false
  | a :: as, b :: bs =>
    if a.toNat < b.toNat then true
    else if b.toNat < a.toNat then false
    else listLexLe as bs

/-- Python string comparison a <= b, by code points. -/
def pyStrLe (a b : String) : Bool :=
  listLexLe a.data b.data

/-- Python min over a nonempty list of strings; returns the default on
the empty list (never used on it by the callers). -/
def pyMinStr (default : String) : List String → String
  | [] => default
  | s :: rest =>
    match rest with
    | [] => s
    | _ =>
      let m := pyMinStr default rest
      if pyStrLe s m then s else m

/-- ASCII upper-casing of one character, the fragment of Python
str.upper exercised by the analyzed status strings. -/
def pyUpperChar (c : Char) : Char :=
  if 97 ≤ c.toNat ∧ c.toNat ≤ 122 then Char.ofNat (c.toNat - 32) else c

/-- Python str.upper on a character list (ASCII fragment). -/
def pyUpper (l : List Char) : List Char :=
  l.map pyUpperChar

/-- Whitespace recognised by Python str.strip. -/
def pySpace (c : Char) : Bool :=
  c == ' ' || c == '\t' || c == '\n' || c == '\r'

/-- Python str.strip on a character list. -/
def pyStrip (l : List Char) : List Char :=
  ((l.dropWhile pySpace).reverse.dropWhile pySpace).reverse

/-- Python str.split with a single-character separator; always returns a
nonempty list of segments. -/
def pySplit (sep : Char) : List Char → List (List Char)
  | [] => [[]]
  | c :: rest =>
    let r := pySplit sep rest
    if c == sep then [] :: r
    else
      match r with
      | seg :: segs => (c :: seg) :: segs
      | [] => [[c]]

/-- String built from a character list. -/
def strOf (l : List Char) : String :=
  String.mk l

/-- First ten characters of a string: the Python slice s[:10] used to
turn an ISO timestamp into its calendar-day key. -/
def take10 (s : String) : String :=
  strOf (s.data.take 10)

/-- Stable insertion of an element into a list: the element is placed
before the first entry it is le-below-or-tied-with is false for...
precisely, x goes before y exactly when le x y holds, so an element
inserted later never jumps before an equal earlier one. -/
def insertSorted (le : α → α → Bool) (x : α) : List α → List α
  | [] => [x]
  | y :: ys => if le x y then x :: y :: ys else y :: insertSorted le x ys

/-- Stable ascending insertion sort, the model of Python list.sort and
sorted with a key function. -/
def isortBy (le : α → α → Bool) : List α → List α
  | [] => []
  | x :: xs => insertSorted le x (isortBy le xs)

/-- Unique elements of a list in first-occurrence order: the key order of
a Python OrderedDict populated by setdefault. -/
def firstOccurAux (seen : List String) : List String → List String
  | [] => []
  | x :: xs =>
    if seen.contains x then firstOccurAux seen xs
    else x :: firstOccurAux (x :: seen) xs

/-!
Tree Builder (JiraTreeGenerator.build_issue_tree,
src/utils/jira_tree_classes.py lines 129-228).
-/

/-- One entry of the issue_links list of an issue record: the code reads
link.get('relation_type') and link.get('key'), both possibly absent. -/
structure Link where
  relation_type : Option String
  key : Option String
deriving DecidableEq, Repr

/-- The fields of a stored issue record read by build_issue_tree:
issue_type is read with default '' (get('issue_type', '')), resolution
with default None, and issue_links is tested for presence before being
iterated. -/
structure IssueData where
  issue_type : String
  resolution : Option String
  issue_links : Option (List Link)
deriving DecidableEq, Repr

/-- The issue store: the directory of per-issue JSON files, keyed by
issue key. find_json_for_key followed by read_jira_issue is modelled by
first-match lookup; a miss covers both a missing and an unreadable
file. -/
abbrev Store := List (String × IssueData)

/-- Fetch-or-load of one issue record (find_json_for_key plus
read_jira_issue). -/
def fetch (store : Store) (k : String) : Option IssueData :=
  (store.find? (fun p => p.1 == k)).map (fun p => p.2)

/-- The distinct keys that have a record in the store. -/
def storeKeys (store : Store) : List String :=
  (store.map (fun p => p.1)).dedup

/-- Largest issue_links list length over the store, used only to size
the traversal fuel. -/
def maxLinks (store : Store) : Nat :=
  store.foldr
    (fun p m =>
      max m (match p.2.issue_links with
             | some ls => ls.length
             | none => 0))
    0

/-- The relation whitelist self.allowed_hierarchy_types: a dict from
issue type to the list of relation types to follow. -/
abbrev Whitelist := List (String × List String)

/-- Dict lookup allowed_hierarchy_types.get(t, []). -/
def wlGet (wl : Whitelist) (t : String) : List String :=
  ((wl.find? (fun p => p.1 == t)).map (fun p => p.2)).getD []

/-- Dict key membership t in allowed_hierarchy_types. -/
def wlHasKey (wl : Whitelist) (t : String) : Bool :=
  (wl.find? (fun p => p.1 == t)).isSome

/-- Membership of a resolution value in resolutions_to_skip, the list
['Rejected', 'Withdrawn']; a missing resolution is never skipped. -/
def resolutionSkipped (r : Option String) : Bool :=
  r == some "Rejected" || r == some "Withdrawn"

/-- The state threaded through build_issue_tree: the node and edge sets
of the networkx DiGraph G (kept as insertion-ordered duplicate-free
lists), the visited set, and additionally the chronological list of
visited-set insertions (trace), recorded so that the at-most-once
expansion discipline is itself an inspectable value. -/
structure TreeState where
  nodes : List String
  edges : List (String × String)
  visited : List String
  trace : List String
deriving DecidableEq, Repr

/-- G.add_node: a present node is left in place (its attributes would
merely be refreshed with the same stored record). -/
def addNode (k : String) (s : TreeState) : TreeState :=
  if k ∈ s.nodes then s else { s with nodes := s.nodes ++ [k] }

/-- G.add_edge on a DiGraph: idempotent on the edge set. -/
def addEdge (e : String × String) (s : TreeState) : TreeState :=
  if e ∈ s.edges then s else { s with edges := s.edges ++ [e] }

/-- visited.add(parent_key), with the insertion also recorded on the
trace. -/
def markVisited (pk : String) (s : TreeState) : TreeState :=
  { s with visited := pk :: s.visited, trace := s.trace ++ [pk] }

/-- The work items of the traversal: expanding one node (_add_children
applied to parent_key) or walking the remaining suffix of that node's
issue_links list (the for-loop inside _add_children). -/
inductive TreeJob where
  | expand (parentKey : String)
  | links (parentKey : String) (allowed : List String) (ls : List Link)
deriving Repr

/-- The recursive traversal of build_issue_tree. The expand case is the
body of _add_children: return when the parent is in the visited set,
otherwise mark it visited and walk its issue_links; the links case is
the for-loop, whose body filters each link by relation type, key
presence and truthiness, child fetchability and (unless
include_rejected) resolution, then adds the child node and the edge and
recurses into the child. parent_data is read back from the store, which
agrees with the attributes stored on the graph node since every node is
added with its fetched record. Fuel makes the recursion structural; the
theorems below show the fuel chosen by build_issue_tree is never
exhausted. -/
def treeGo (store : Store) (wl : Whitelist) (includeRejected : Bool) :
    Nat → TreeJob → TreeState → TreeState
  | 0, _, s => s
  | Nat.succ fuel, TreeJob.expand pk, s =>
    if pk ∈ s.visited then s
    else
      match fetch store pk with
      | none => markVisited pk s
      | some pd =>
        let allowed := wlGet wl pd.issue_type
        if allowed.isEmpty then markVisited pk s
        else
          match pd.issue_links with
          | none => markVisited pk s
          | some ls =>
            treeGo store wl includeRejected fuel (TreeJob.links pk allowed ls) (markVisited pk s)
  | Nat.succ _, TreeJob.links _ _ [], s => s
  | Nat.succ fuel, TreeJob.links pk allowed (link :: rest), s =>
    match link.relation_type with
    | none => treeGo store wl includeRejected fuel (TreeJob.links pk allowed rest) s
    | some rt =>
      if allowed.contains rt then
        match link.key with
        | none => treeGo store wl includeRejected fuel (TreeJob.links pk allowed rest) s
        | some ck =>
          if ck == "" then treeGo store wl includeRejected fuel (TreeJob.links pk allowed rest) s
          else
            match fetch store ck with
            | none =>
              treeGo store wl includeRejected fuel (TreeJob.links pk allowed rest) s
            | some cd =>
              if !includeRejected && resolutionSkipped cd.resolution then
                treeGo store wl includeRejected fuel (TreeJob.links pk allowed rest) s
              else
                treeGo store wl includeRejected fuel (TreeJob.links pk allowed rest)
                  (treeGo store wl includeRejected fuel (TreeJob.expand ck)
                    (addEdge (pk, ck) (addNode ck s)))
      else treeGo store wl includeRejected fuel (TreeJob.links pk allowed rest) s

/-- Fuel that always suffices for the traversal (proved below). -/
def stdFuel (store : Store) : Nat :=
  (storeKeys store).length * (maxLinks store + 2) + 2

/-- build_issue_tree with an explicit fuel parameter: fetch the root,
reject a root whose issue_type is not a key of the whitelist or whose
resolution is excluded (unless include_rejected), then add the root
node and run _add_children on it. -/
def buildIssueTreeFuel (store : Store) (wl : Whitelist) (rootKey : String)
    (includeRejected : Bool) (fuel : Nat) : Option TreeState :=
  match fetch store rootKey with
  | none => none
  | some rootData =>
    if !(wlHasKey wl rootData.issue_type) then none
    else if !includeRejected && resolutionSkipped rootData.resolution then none
    else
      some (treeGo store wl includeRejected fuel (TreeJob.expand rootKey)
        { nodes := [rootKey], edges := [], visited := [], trace := [] })

/-- JiraTreeGenerator.build_issue_tree. -/
def build_issue_tree (store : Store) (wl : Whitelist) (rootKey : String)
    (includeRejected : Bool) : Option TreeState :=
  buildIssueTreeFuel store wl rootKey includeRejected (stdFuel store)

/-- All the per-link filters of the for-loop body, for a given link and
candidate child key: the relation type is present and whitelisted, the
key is present, truthy and equal to the candidate, the child record is
fetchable, and its resolution is not excluded (unless
include_rejected). -/
def qualifiesB (store : Store) (allowed : List String) (includeRejected : Bool)
    (link : Link) (c : String) : Bool :=
  (match link.relation_type with
   | some rt => allowed.contains rt
   | none => false) &&
  link.key == some c && !(c == "") &&
  (match fetch store c with
   | some cd => includeRejected || !(resolutionSkipped cd.resolution)
   | none => false)

/-- The one-step successor relation actually followed by the traversal:
parent p has a fetchable record with an issue_links list containing a
link that passes every filter towards child c. -/
def admissibleB (store : Store) (wl : Whitelist) (includeRejected : Bool)
    (p c : String) : Bool :=
  match fetch store p with
  | none => false
  | some pd =>
    match pd.issue_links with
    | none => false
    | some ls => ls.any (fun link => qualifiesB store (wlGet wl pd.issue_type) includeRejected link c)

/-- Propositional form of the admissible-edge relation. -/
def Adm (store : Store) (wl : Whitelist) (includeRejected : Bool) (p c : String) : Prop :=
  admissibleB store wl includeRejected p c = true

/-- Reachability along admissible edges: the declarative description of
which keys the traversal discovers. -/
def Reaches (store : Store) (wl : Whitelist) (includeRejected : Bool) (p c : String) : Prop :=
  Relation.ReflTransGen (Adm store wl includeRejected) p c

/-- Some link of the list passes every filter towards child c. -/
def QualAny (store : Store) (allowed : List String) (includeRejected : Bool)
    (ls : List Link) (c : String) : Prop :=
  ∃ link ∈ ls, qualifiesB store allowed includeRejected link c = true

/-- Hypotheses under which a links job arises from the traversal: its
link list is a suffix of the issue_links of its (fetchable) parent and
its allowed list is the whitelist entry of the parent type. -/
def LinksPre (store : Store) (wl : Whitelist) (pk : String) (allowed : List String)
    (ls : List Link) : Prop :=
  ∃ pd fullLs, fetch store pk = some pd ∧ pd.issue_links = some fullLs ∧
    allowed = wlGet wl pd.issue_type ∧ ls <:+ fullLs

/-- Postcondition of expanding a node: the visited set grows by exactly
the keys reachable from the expanded node, every newly visited node has
all its admissible successors visited, and the node and edge sets grow
by exactly the admissible edges out of newly visited nodes; the trace
stays aligned with the visited set and duplicate-freeness is
preserved. -/
structure PostExpand (store : Store) (wl : Whitelist) (ir : Bool) (pk : String)
    (s t : TreeState) : Prop where
  vis_mono : ∀ k, k ∈ s.visited → k ∈ t.visited
  self_vis : pk ∈ t.visited
  sound : ∀ k, k ∈ t.visited → k ∈ s.visited ∨ Reaches store wl ir pk k
  closed : ∀ q, q ∉ s.visited → q ∈ t.visited → ∀ c, Adm store wl ir q c → c ∈ t.visited
  edges_iff : ∀ e : String × String, e ∈ t.edges ↔ e ∈ s.edges ∨
    (e.1 ∉ s.visited ∧ e.1 ∈ t.visited ∧ Adm store wl ir e.1 e.2)
  nodes_iff : ∀ k, k ∈ t.nodes ↔ k ∈ s.nodes ∨
    ∃ q, q ∉ s.visited ∧ q ∈ t.visited ∧ Adm store wl ir q k
  trace_align : s.trace.reverse = s.visited → t.trace.reverse = t.visited
  vis_nodup : s.visited.Nodup → t.visited.Nodup

/-- Postcondition of walking a suffix of a parent's link list. -/
structure PostLinks (store : Store) (wl : Whitelist) (ir : Bool) (pk : String)
    (allowed : List String) (ls : List Link) (s t : TreeState) : Prop where
  vis_mono : ∀ k, k ∈ s.visited → k ∈ t.visited
  sound : ∀ k, k ∈ t.visited → k ∈ s.visited ∨
    ∃ c, QualAny store allowed ir ls c ∧ Reaches store wl ir c k
  closed : ∀ q, q ∉ s.visited → q ∈ t.visited → ∀ c, Adm store wl ir q c → c ∈ t.visited
  childdone : ∀ c, QualAny store allowed ir ls c → c ∈ t.visited
  edges_iff : ∀ e : String × String, e ∈ t.edges ↔ e ∈ s.edges ∨
    (e.1 ∉ s.visited ∧ e.1 ∈ t.visited ∧ Adm store wl ir e.1 e.2) ∨
    (e.1 = pk ∧ QualAny store allowed ir ls e.2)
  nodes_iff : ∀ k, k ∈ t.nodes ↔ k ∈ s.nodes ∨
    (∃ q, q ∉ s.visited ∧ q ∈ t.visited ∧ Adm store wl ir q k) ∨
    QualAny store allowed ir ls k
  trace_align : s.trace.reverse = s.visited → t.trace.reverse = t.visited
  vis_nodup : s.visited.Nodup → t.visited.Nodup

/-- Number of store keys not yet in the visited set. -/
def unexpanded (store : Store) (v : List String) : Nat :=
  ((storeKeys store).filter (fun k => decide (k ∉ v))).length

/-- Termination measure of a traversal job: every recursive call of
treeGo strictly decreases it, so fuel at least the measure is never
exhausted. -/
def jobMeasure (store : Store) (job : TreeJob) (v : List String) : Nat :=
  match job with
  | TreeJob.expand _ => unexpanded store v * (maxLinks store + 2) + 1
  | TreeJob.links _ _ ls => unexpanded store v * (maxLinks store + 2) + ls.length + 1

/-!
Worklist formulation of the Tree Builder as specified: an explicit work
list with a seen set and an expanded set, parameterised by the pop
discipline, so that depth-first (stack), breadth-first (queue) and any
other pop order are instances of one algorithm.
-/

/-- State of the worklist traversal. -/
structure WState where
  nodes : List String
  edges : List (String × String)
  seen : List String
  expanded : List String
  worklist : List String
deriving DecidableEq, Repr

/-- One pop discipline: given the current worklist, either report it
empty or select one element and return it with the remaining items. -/
abbrev Selector := List String → Option (String × List String)

/-- The selector only picks an element of the worklist and keeps the
rest: the popped element together with the remainder is a permutation
of the worklist. -/
def SelValid (sel : Selector) : Prop :=
  ∀ l x rest, sel l = some (x, rest) → (x :: rest).Perm l

/-- The selector makes progress on a nonempty worklist. -/
def SelProgress (sel : Selector) : Prop :=
  ∀ l, l ≠ [] → (sel l).isSome

/-- Pop from the front: breadth-first order when pushes append. -/
def queueSel : Selector
  | [] => none
  | x :: rest => some (x, rest)

/-- Pop from the back: depth-first order when pushes append. -/
def stackSel : Selector
  | [] => none
  | x :: rest => some ((x :: rest).getLast (by simp), (x :: rest).dropLast)

/-- The per-link body of an expansion step in the worklist algorithm:
apply the same filters as the recursive traversal, add the node and the
edge for a passing link, and push the child if it has not been seen. -/
def wLinkStep (store : Store) (ir : Bool) (cur : String) (allowed : List String)
    (link : Link) (w : WState) : WState :=
  match link.relation_type with
  | none => w
  | some rt =>
    if allowed.contains rt then
      match link.key with
      | none => w
      | some ck =>
        if ck == "" then w
        else
          match fetch store ck with
          | none => w
          | some cd =>
            if !ir && resolutionSkipped cd.resolution then w
            else
              let w1 : WState :=
                { w with
                  nodes := if ck ∈ w.nodes then w.nodes else w.nodes ++ [ck],
                  edges := if (cur, ck) ∈ w.edges then w.edges else w.edges ++ [(cur, ck)] }
              if ck ∈ w1.seen then w1
              else { w1 with seen := w1.seen ++ [ck], worklist := w1.worklist ++ [ck] }
    else w

/-- Walk all links of the node being expanded. -/
def wLinks (store : Store) (ir : Bool) (cur : String) (allowed : List String) :
    List Link → WState → WState
  | [], w => w
  | link :: rest, w => wLinks store ir cur allowed rest (wLinkStep store ir cur allowed link w)

/-- The worklist loop: pop an item by the given discipline, skip it if
already expanded, otherwise mark it expanded and process its links.
Fuel makes the loop structural; the theorems below show the fuel chosen
by worklistBuild is never exhausted. -/
def worklistGo (store : Store) (wl : Whitelist) (ir : Bool) (sel : Selector) :
    Nat → WState → WState
  | 0, w => w
  | Nat.succ fuel, w =>
    match sel w.worklist with
    | none => w
    | some (cur, rest) =>
      if cur ∈ w.expanded then
        worklistGo store wl ir sel fuel { w with worklist := rest }
      else
        let w1 : WState := { w with worklist := rest, expanded := w.expanded ++ [cur] }
        match fetch store cur with
        | none => worklistGo store wl ir sel fuel w1
        | some pd =>
          worklistGo store wl ir sel fuel
            (wLinks store ir cur (wlGet wl pd.issue_type) (pd.issue_links.getD []) w1)

/-- Fuel that always suffices for the worklist loop (proved below). -/
def wlFuel (store : Store) : Nat :=
  (storeKeys store).length * (maxLinks store + 2) + 2

/-- The worklist Tree Builder of the specification: the same root
validation as build_issue_tree, then the worklist loop seeded with the
root node marked seen. -/
def worklistBuild (store : Store) (wl : Whitelist) (rootKey : String)
    (ir : Bool) (sel : Selector) : Option WState :=
  match fetch store rootKey with
  | none => none
  | some rootData =>
    if !(wlHasKey wl rootData.issue_type) then none
    else if !ir && resolutionSkipped rootData.resolution then none
    else
      some (worklistGo store wl ir sel (wlFuel store)
        { nodes := [rootKey], edges := [], seen := [rootKey], expanded := [],
          worklist := [rootKey] })

/-- Measure of the worklist loop. -/
def wMeasure (store : Store) (w : WState) : Nat :=
  ((storeKeys store).filter (fun k => decide (k ∉ w.expanded))).length
    * (maxLinks store + 2) + w.worklist.length + 1

/-- Loop invariant of the worklist traversal: the worklist is part of
the seen set, every seen key is expanded or still queued, expansion is
sound for reachability and closed over admissible edges, the node and
edge sets are exactly the root plus the admissible edges out of
expanded nodes, and every seen key has a fetchable record. -/
structure WInv (store : Store) (wl : Whitelist) (ir : Bool) (root : String)
    (w : WState) : Prop where
  wl_seen : ∀ k, k ∈ w.worklist → k ∈ w.seen
  seen_cases : ∀ k, k ∈ w.seen → k ∈ w.expanded ∨ k ∈ w.worklist
  exp_seen : ∀ k, k ∈ w.expanded → k ∈ w.seen
  root_seen : root ∈ w.seen
  sound : ∀ k, k ∈ w.seen → Reaches store wl ir root k
  closed : ∀ q, q ∈ w.expanded → ∀ c, Adm store wl ir q c → c ∈ w.seen
  edges_iff : ∀ e : String × String,
    e ∈ w.edges ↔ e.1 ∈ w.expanded ∧ Adm store wl ir e.1 e.2
  nodes_iff : ∀ k, k ∈ w.nodes ↔ k = root ∨ ∃ q, q ∈ w.expanded ∧ Adm store wl ir q k
  fetchable : ∀ k, k ∈ w.seen → (fetch store k).isSome = true

/-!
Activity events and the Status Analyzer
(src/features/status_analyzer.py).
-/

/-- One change-history event, as stored in the activities list of an
issue file and as consumed by the analyzers; issue_key is the
back-reference injected by the Activity Aggregator (the user field of
the source records is read by no analyzed code path and is omitted). -/
structure Activity where
  feld_name : Option String
  alter_wert : Option String
  neuer_wert : Option String
  zeitstempel_iso : String
  issue_key : String
deriving DecidableEq, Repr

/-- StatusAnalyzer._clean_status_name: map a raw status string such as
'wf:DONE [id]' to 'DONE'; when the bracket is present the segment
between the first two colons is taken if a second segment exists,
otherwise the raw string is used; the result is stripped and
upper-cased, and a falsy input gives 'N/A'. -/
def cleanStatusName (raw : Option String) : String :=
  match raw with
  | none => "N/A"
  | some s =>
    if s == "" then "N/A"
    else if s.data.contains '[' then
      match pySplit ':' s.data with
      | _ :: seg :: _ => strOf (pyUpper (pyStrip ((pySplit '[' seg).headD [])))
      | _ => strOf (pyUpper (pyStrip s.data))
    else strOf (pyUpper (pyStrip s.data))

/-- status_durations.get(name, timedelta(0)) followed by the indexed
assignment: add a delta onto one key of the durations dict. -/
def addDuration : List (String × Int) → String → Int → List (String × Int)
  | [], k, d => [(k, d)]
  | (k1, v) :: rest, k, d =>
    if k1 == k then (k1, v + d) :: rest else (k1, v) :: addDuration rest k d

/-- Sum of the values of a durations dict. -/
def mapSum (m : List (String × Int)) : Int :=
  (m.map (fun p => p.2)).sum

/-- The consecutive-pairs loop of _calculate_epic_status_durations:
for each adjacent pair (a, b) of status changes, accumulate the
timestamp difference onto the status named by the earlier event.
Timestamps are turned into instants by the parse argument, which
abstracts datetime.fromisoformat; timedelta values are modelled as
integer instant differences. -/
def pairLoop (parse : String → Int) : List Activity → List (String × Int) → List (String × Int)
  | a :: b :: rest, m =>
    pairLoop parse (b :: rest)
      (addDuration m (cleanStatusName a.neuer_wert)
        (parse b.zeitstempel_iso - parse a.zeitstempel_iso))
  | _, m => m

/-- StatusAnalyzer._calculate_epic_status_durations: select the epic's
activities, return the empty dict if there are none, otherwise prepend
a synthetic FUNNEL status change at the first activity's timestamp to
the epic's Status events, accumulate adjacent differences, and close
with an open interval from the last change to now. -/
def calcEpicStatusDurations (parse : String → Int) (now : Int)
    (allActivities : List Activity) (epicId : String) : List (String × Int) :=
  match allActivities.filter (fun a => a.issue_key == epicId) with
  | [] => []
  | firstAct :: restActs =>
    let changes :=
      { feld_name := none, alter_wert := none, neuer_wert := some "FUNNEL",
        zeitstempel_iso := firstAct.zeitstempel_iso, issue_key := epicId } ::
      (firstAct :: restActs).filter (fun a => a.feld_name == some "Status")
    let m := pairLoop parse changes []
    match changes.getLast? with
    | some lastChange =>
      addDuration m (cleanStatusName lastChange.neuer_wert)
        (now - parse lastChange.zeitstempel_iso)
    | none => m

/-- Python truthiness of the start_time value in the coding-window scan
(None or the empty string are falsy). -/
def falsyOptStr : Option String → Bool
  | none => true
  | some s => s == ""

/-- The coding-window scan of StatusAnalyzer.analyze over the story
activities: start_time is set by the first IN PROGRESS status event
while falsy, end_time is overwritten by every RESOLVED or CLOSED status
event. -/
def codingLoop : List Activity → Option String → Option String → Option String × Option String
  | [], st, en => (st, en)
  | a :: rest, st, en =>
    if a.feld_name == some "Status" then
      codingLoop rest
        (if falsyOptStr st && (cleanStatusName a.neuer_wert == "IN PROGRESS")
         then some a.zeitstempel_iso else st)
        (if cleanStatusName a.neuer_wert == "RESOLVED" || cleanStatusName a.neuer_wert == "CLOSED"
         then some a.zeitstempel_iso else en)
    else codingLoop rest st en

/-- The slice of the issue_details cache read by the analyzed code
paths: the issue type. -/
structure IssueDetails where
  type : Option String
deriving DecidableEq, Repr

/-- story_keys: the keys whose cached details have type Story. -/
def storyKeysOf (details : List (String × IssueDetails)) : List String :=
  (details.filter (fun p => p.2.type == some "Story")).map (fun p => p.1)

/-- The coding-window derivation of StatusAnalyzer.analyze: filter the
global activity stream to story issues and run the scan. -/
def codingWindow (details : List (String × IssueDetails))
    (allActivities : List Activity) : Option String × Option String :=
  codingLoop (allActivities.filter (fun a => (storyKeysOf details).contains a.issue_key)) none none

/-- Specification-side helper: timestamp of the first event of a list
satisfying a predicate. -/
def firstTsMatching (p : Activity → Bool) (l : List Activity) : Option String :=
  (l.find? p).map (fun a => a.zeitstempel_iso)

/-- Specification-side helper: timestamp of the last event of a list
satisfying a predicate. -/
def lastTsMatching (p : Activity → Bool) (l : List Activity) : Option String :=
  (l.reverse.find? p).map (fun a => a.zeitstempel_iso)

/-- Status event whose normalized new value is IN PROGRESS. -/
def inProgressPred (a : Activity) : Bool :=
  a.feld_name == some "Status" && cleanStatusName a.neuer_wert == "IN PROGRESS"

/-- Status event whose normalized new value is RESOLVED or CLOSED. -/
def donePred (a : Activity) : Bool :=
  a.feld_name == some "Status" &&
  (cleanStatusName a.neuer_wert == "RESOLVED" || cleanStatusName a.neuer_wert == "CLOSED")

/-!
Activity Aggregator (ProjectDataProvider._gather_all_activities and the
sort in its constructor, src/utils/project_data_provider.py).
-/

/-- The per-issue activity lists as stored on disk, keyed by issue key;
a lookup miss models a missing or unreadable file, which the aggregator
skips. -/
abbrev ActivityStore := List (String × List Activity)

/-- _gather_all_activities: walk the node keys of the built graph, read
each issue's stored activities, inject the owning issue_key into every
event, and concatenate. -/
def gatherAllActivities (actStore : ActivityStore) (nodeKeys : List String) : List Activity :=
  (nodeKeys.map (fun k =>
    match actStore.find? (fun p => p.1 == k) with
    | some p => p.2.map (fun a => { a with issue_key := k })
    | none => [])).flatten

/-- The sort key of the constructor: the raw ISO timestamp string,
compared as Python compares strings. -/
def activityLe (a b : Activity) : Bool :=
  pyStrLe a.zeitstempel_iso b.zeitstempel_iso

/-- all_activities after the constructor: gathered, then stably sorted
ascending by the timestamp string. -/
def allActivitiesSorted (actStore : ActivityStore) (nodeKeys : List String) : List Activity :=
  isortBy activityLe (gatherAllActivities actStore nodeKeys)

/-- A structured ISO-8601 timestamp with a UTC offset: the semantic
reading of the strings stored in zeitstempel_iso. -/
structure IsoTs where
  year : Nat
  month : Nat
  day : Nat
  hour : Nat
  minute : Nat
  second : Nat
  offsetMinutes : Int
deriving DecidableEq, Repr

/-- Two-digit zero-padded rendering. -/
def pad2 (n : Nat) : String :=
  if n < 10 then "0" ++ toString n else toString n

/-- Four-digit zero-padded rendering. -/
def pad4 (n : Nat) : String :=
  if n < 10 then "000" ++ toString n
  else if n < 100 then "00" ++ toString n
  else if n < 1000 then "0" ++ toString n
  else toString n

/-- Rendering of a structured timestamp in the extended ISO-8601 form
YYYY-MM-DDTHH:MM:SS+HH:MM. -/
def isoRender (t : IsoTs) : String :=
  pad4 t.year ++ "-" ++ pad2 t.month ++ "-" ++ pad2 t.day ++ "T" ++
  pad2 t.hour ++ ":" ++ pad2 t.minute ++ ":" ++ pad2 t.second ++
  (if 0 ≤ t.offsetMinutes then "+" else "-") ++
  pad2 (t.offsetMinutes.natAbs / 60) ++ ":" ++ pad2 (t.offsetMinutes.natAbs % 60)

/-- Days since 1970-01-01 of a civil date (the standard civil-from-days
inverse computation). -/
def daysFromCivil (y : Int) (m d : Nat) : Int :=
  let y1 := if m ≤ 2 then y - 1 else y
  let era := Int.fdiv y1 400
  let yoe := y1 - era * 400
  let mp : Int := Int.emod (Int.ofNat m + 9) 12
  let doy := Int.fdiv (153 * mp + 2) 5 + (Int.ofNat d - 1)
  let doe := yoe * 365 + Int.fdiv yoe 4 - Int.fdiv yoe 100 + doy
  era * 146097 + doe - 719468

/-- The instant denoted by a structured timestamp, in seconds since the
epoch: the civil reading minus the UTC offset. -/
def isoInstant (t : IsoTs) : Int :=
  ((daysFromCivil (Int.ofNat t.year) t.month t.day * 24 + Int.ofNat t.hour) * 60
    + Int.ofNat t.minute) * 60 + Int.ofNat t.second - t.offsetMinutes * 60

/-!
Backlog Analyzer (BacklogAnalyzer.analyze, steps 1-3,
src/features/backlog_analyzer.py).
-/

/-- Python expression activity.get('neuer_wert', '').upper(). -/
def pyUpperD (o : Option String) : String :=
  strOf (pyUpper (o.getD "").data)

/-- Status event whose raw new value, upper-cased without any
normalization, is RESOLVED or CLOSED: the finish condition the Backlog
Analyzer actually tests. -/
def rawDonePred (a : Activity) : Bool :=
  a.feld_name == some "Status" &&
  (pyUpperD a.neuer_wert == "RESOLVED" || pyUpperD a.neuer_wert == "CLOSED")

/-- The per-story timestamps tracked by the Backlog Analyzer. -/
structure StoryTimes where
  start_time : Option String
  finish_time : Option String
deriving DecidableEq, Repr

/-- The per-activity update of one story's entry: start_time is set by
the first activity of any kind, finish_time by the first Status event
whose raw upper-cased new value is RESOLVED or CLOSED. -/
def backlogStep (a : Activity) (t : StoryTimes) : StoryTimes :=
  let t1 := if t.start_time.isNone then { t with start_time := some a.zeitstempel_iso } else t
  if a.feld_name == some "Status" &&
     (pyUpperD a.neuer_wert == "RESOLVED" || pyUpperD a.neuer_wert == "CLOSED") &&
     t1.finish_time.isNone
  then { t1 with finish_time := some a.zeitstempel_iso }
  else t1

/-- The activity loop of BacklogAnalyzer.analyze step 2: skip events of
non-story issues, update the owning story's entry otherwise. -/
def backlogLoop (storyKeys : List String) :
    List Activity → List (String × StoryTimes) → List (String × StoryTimes)
  | [], m => m
  | a :: rest, m =>
    if storyKeys.contains a.issue_key then
      backlogLoop storyKeys rest
        (m.map (fun p => if p.1 == a.issue_key then (p.1, backlogStep a p.2) else p))
    else backlogLoop storyKeys rest m

/-- story_times after step 2: every story starts with empty times and
the activity stream is folded over the entries. -/
def backlogStoryTimes (details : List (String × IssueDetails))
    (allActivities : List Activity) : List (String × StoryTimes) :=
  backlogLoop (storyKeysOf details) allActivities
    ((storyKeysOf details).map (fun k => (k, { start_time := none, finish_time := none })))

/-- Dict lookup in the story_times mapping. -/
def lookupTimes (m : List (String × StoryTimes)) (k : String) : Option StoryTimes :=
  (m.find? (fun p => p.1 == k)).map (fun p => p.2)

/-!
Time-Creep Analyzer (TimeCreepAnalyzer.analyze per-issue state machine,
src/features/time_creep_analyzer.py lines 233-288, with its helpers
_parse_any_date_string, _parse_fix_version_to_date,
_normalize_fix_version_string and _compare_dates).
-/

/-- Calendar date as compared by Python date objects. -/
structure DateD where
  y : Int
  m : Int
  d : Int
deriving DecidableEq, Repr

/-- Strict order on dates. -/
def dateLt (a b : DateD) : Bool :=
  a.y < b.y || (a.y == b.y && (a.m < b.m || (a.m == b.m && a.d < b.d)))

/-- Reflexive order on dates. -/
def dateLe (a b : DateD) : Bool :=
  dateLt a b || a == b

/-- ASCII digit test. -/
def isDigit (c : Char) : Bool :=
  48 ≤ c.toNat && c.toNat ≤ 57

/-- Numeric value of an ASCII digit. -/
def digitVal (c : Char) : Nat :=
  c.toNat - 48

/-- Number denoted by a digit list. -/
def natOfDigits (l : List Char) : Nat :=
  l.foldl (fun acc c => acc * 10 + digitVal c) 0

/-- Every character is a digit. -/
def allDigits (l : List Char) : Bool :=
  l.all isDigit

/-- Model of datetime.fromisoformat(s).date() on the date shapes that
occur in the analyzed fields: a YYYY-MM-DD prefix, either alone or
followed by a time part, with basic range validation. -/
def parseIsoDate (s : String) : Option DateD :=
  match s.data with
  | y1 :: y2 :: y3 :: y4 :: c1 :: m1 :: m2 :: c2 :: d1 :: d2 :: rest =>
    if allDigits [y1, y2, y3, y4] && c1 == '-' && allDigits [m1, m2] && c2 == '-' &&
       allDigits [d1, d2] &&
       (rest.isEmpty || rest.headD ' ' == 'T' || rest.headD ' ' == ' ')
    then
      let m := natOfDigits [m1, m2]
      let d := natOfDigits [d1, d2]
      if 1 ≤ m && m ≤ 12 && 1 ≤ d && d ≤ 31 then
        some { y := Int.ofNat (natOfDigits [y1, y2, y3, y4]), m := Int.ofNat m, d := Int.ofNat d }
      else none
    else none
  | _ => none

/-- English month abbreviations of strptime %b. -/
def monthNum (l : List Char) : Option Nat :=
  match strOf l with
  | "Jan" => some 1
  | "Feb" => some 2
  | "Mar" => some 3
  | "Apr" => some 4
  | "May" => some 5
  | "Jun" => some 6
  | "Jul" => some 7
  | "Aug" => some 8
  | "Sep" => some 9
  | "Oct" => some 10
  | "Nov" => some 11
  | "Dec" => some 12
  | _ => none

/-- Model of datetime.strptime(s, day/month-abbreviation/year). -/
def parseDMonY (s : String) : Option DateD :=
  match pySplit '/' s.data with
  | [dc, mc, yc] =>
    if allDigits dc && decide (1 ≤ dc.length) && decide (dc.length ≤ 2) &&
       allDigits yc && decide (yc.length == 4)
    then
      match monthNum mc with
      | some m =>
        let d := natOfDigits dc
        if 1 ≤ d && d ≤ 31 then
          some { y := Int.ofNat (natOfDigits yc), m := Int.ofNat m, d := Int.ofNat d }
        else none
      | none => none
    else none
  | _ => none

/-- Python expression s.split(':')[-1].strip(). -/
def lastColonSegment (s : String) : String :=
  strOf (pyStrip ((pySplit ':' s.data).getLastD []))

/-- TimeCreepAnalyzer._parse_any_date_string: a falsy input has no
date; otherwise try the ISO form, then the day/month/year form on the
last colon segment; on failure the observation has no value. The
result is the degenerate range (d, d). -/
def parseAnyDateString (raw : Option String) : Option (DateD × DateD) :=
  match raw with
  | none => none
  | some s =>
    if s == "" then none
    else
      match parseIsoDate s with
      | some d => some (d, d)
      | none =>
        match parseDMonY (lastColonSegment s) with
        | some d => some (d, d)
        | none => none

/-- Match of the release-train regex at the head of the list: the
characters PI followed by at least one digit. -/
def tryPIStr (l : List Char) : Option (List Char) :=
  match l with
  | 'P' :: 'I' :: rest =>
    let ds := rest.takeWhile isDigit
    if ds.isEmpty then none else some ('P' :: 'I' :: ds)
  | _ => none

/-- First match of the release-train regex anywhere in the list. -/
def findPIStr : List Char → Option (List Char)
  | [] => none
  | c :: rest =>
    match tryPIStr (c :: rest) with
    | some r => some r
    | none => findPIStr rest

/-- Match of the quarter regex at the head of the list: Q, one digit,
an underscore, two digits. -/
def tryQStr (l : List Char) : Option (List Char) :=
  match l with
  | 'Q' :: q :: u :: a :: b :: _ =>
    if isDigit q && u == '_' && isDigit a && isDigit b then some ['Q', q, '_', a, b]
    else none
  | _ => none

/-- First match of the quarter regex anywhere in the list. -/
def findQStr : List Char → Option (List Char)
  | [] => none
  | c :: rest =>
    match tryQStr (c :: rest) with
    | some r => some r
    | none => findQStr rest

/-- TimeCreepAnalyzer._normalize_fix_version_string: extract the
canonical PI or quarter part, else return the input unchanged. -/
def normalizeFixVersionString (raw : Option String) : Option String :=
  match raw with
  | none => none
  | some s =>
    if s == "" then some s
    else
      match findPIStr s.data with
      | some l => some (strOf l)
      | none =>
        match findQStr s.data with
        | some l => some (strOf l)
        | none => some s

/-- TimeCreepAnalyzer._parse_fix_version_to_date: resolve a PI label
through the fixed offset table (PI27 is the first quarter of 2025,
Python floor division and modulo on the offset), or a quarter label
directly, to the exact start and end date of the quarter. -/
def parseFixVersionToDate (raw : Option String) : Option (DateD × DateD) :=
  match raw with
  | none => none
  | some s =>
    if s == "" then none
    else
      let yq : Option (Int × Int) :=
        match findPIStr s.data with
        | some l =>
          let piOffset : Int := Int.ofNat (natOfDigits (l.drop 2)) - 27
          some (2000 + 25 + Int.fdiv piOffset 4, Int.emod piOffset 4 + 1)
        | none =>
          match findQStr s.data with
          | some l => some (2000 + Int.ofNat (natOfDigits (l.drop 3)), Int.ofNat (digitVal (l.getD 1 '0')))
          | none => none
      match yq with
      | none => none
      | some (year, quarter) =>
        if year ≠ 0 && quarter ≠ 0 then
          let startMonth := (quarter - 1) * 3 + 1
          let endMonth := startMonth + 2
          let endDay : Int :=
            if endMonth == 1 || endMonth == 3 || endMonth == 5 || endMonth == 7 ||
               endMonth == 8 || endMonth == 10 || endMonth == 12 then 31
            else if endMonth == 4 || endMonth == 6 || endMonth == 9 || endMonth == 11 then 30
            else if Int.emod year 4 == 0 then 29 else 28
          some ({ y := year, m := startMonth, d := 1 }, { y := year, m := endMonth, d := endDay })
        else none

/-- One classified date-drift event; the human-readable details string
of the source is rendering only and is not modelled. -/
structure TCEvent where
  issue : String
  event_type : String
  timestamp : String
deriving DecidableEq, Repr

/-- TimeCreepAnalyzer._compare_dates on the end dates: a value
appearing where none was known is TIME_SET, a cleared value is ignored,
a changed value is TIME_CREEP when later and TIME_PULL_IN when
earlier. -/
def compareDates (oldEnd newEnd : Option DateD) : Option String :=
  match oldEnd, newEnd with
  | none, some _ => some "TIME_SET"
  | some _, none => none
  | some o, some n =>
    if n ≠ o then (if dateLt o n then some "TIME_CREEP" else some "TIME_PULL_IN") else none
  | none, none => none

/-- current_known_states: per tracked field, the normalized label and
date range of the last parseable observation, if any. -/
structure TCStates where
  targetEnd : Option (Option String × (DateD × DateD))
  fixVersions : Option (Option String × (DateD × DateD))
deriving DecidableEq, Repr

/-- Read the state of one tracked field. -/
def getField (st : TCStates) (f : String) : Option (Option String × (DateD × DateD)) :=
  if f == "Target end" then st.targetEnd else st.fixVersions

/-- Write the state of one tracked field. -/
def setField (st : TCStates) (f : String) (v : Option String × (DateD × DateD)) : TCStates :=
  if f == "Target end" then { st with targetEnd := some v } else { st with fixVersions := some v }

/-- The parser used for one tracked field. -/
def parseForField (f : String) (raw : Option String) : Option (DateD × DateD) :=
  if f == "Target end" then parseAnyDateString raw else parseFixVersionToDate raw

/-- Empty per-field state at the start of an issue's analysis. -/
def initTCStates : TCStates :=
  { targetEnd := none, fixVersions := none }

/-- The per-field body of the day loop (lines 247-284): parse the day's
last observed value, compare its end date with the known end date
(taken as None on the creation day), suppress a Fix Version/s change
whose range contains the currently known Target end date, and record
the new state when the observation parsed. -/
def tcFieldStep (creationDay issueKey day : String) (states : TCStates) (f : String)
    (actOpt : Option Activity) : Option TCEvent × TCStates :=
  match actOpt with
  | none => (none, states)
  | some a =>
    let newRange := parseForField f a.neuer_wert
    let startOfDayState := if day == creationDay then none else getField states f
    let oldEnd := startOfDayState.map (fun st => st.2.2)
    let newEnd := newRange.map (fun r => r.2)
    let evType : Option String :=
      if f == "Fix Version/s" then
        match newRange, (getField states "Target end").map (fun st => st.2.2) with
        | some nr, some te =>
          if dateLe nr.1 te && dateLe te nr.2 then none
          else if oldEnd ≠ newEnd then compareDates oldEnd newEnd else none
        | _, _ => if oldEnd ≠ newEnd then compareDates oldEnd newEnd else none
      else
        if oldEnd ≠ newEnd then compareDates oldEnd newEnd else none
    let ev := evType.map (fun et => { issue := issueKey, event_type := et, timestamp := day })
    match newRange with
    | some nr => (ev, setField states f (normalizeFixVersionString a.neuer_wert, nr))
    | none => (ev, states)

/-- The day's last activity for one field: the generator with reversed
daily activities. -/
def dailyLastFor (relevant : List Activity) (day f : String) : Option Activity :=
  ((relevant.filter (fun a => take10 a.zeitstempel_iso == day)).reverse).find?
    (fun a => a.feld_name == some f)

/-- One day of the state machine: Target end first, then Fix Version/s
on the updated state. -/
def tcDayStep (creationDay issueKey : String) (relevant : List Activity) (day : String)
    (states : TCStates) : List TCEvent × TCStates :=
  let r1 := tcFieldStep creationDay issueKey day states "Target end"
    (dailyLastFor relevant day "Target end")
  let r2 := tcFieldStep creationDay issueKey day r1.2 "Fix Version/s"
    (dailyLastFor relevant day "Fix Version/s")
  (r1.1.toList ++ r2.1.toList, r2.2)

/-- The loop over observation days. -/
def tcDayLoop (creationDay issueKey : String) (relevant : List Activity) :
    List String → TCStates → List TCEvent × TCStates
  | [], states => ([], states)
  | day :: restDays, states =>
    let r := tcDayStep creationDay issueKey relevant day states
    let rRest := tcDayLoop creationDay issueKey relevant restDays r.2
    (r.1 ++ rRest.1, rRest.2)

/-- States after a list of days. -/
def tcStatesAfter (creationDay issueKey : String) (relevant : List Activity)
    (days : List String) (states : TCStates) : TCStates :=
  (tcDayLoop creationDay issueKey relevant days states).2

/-- The tracked activities of one issue, sorted by timestamp string. -/
def tcRelevant (issueActivities : List Activity) : List Activity :=
  isortBy activityLe (issueActivities.filter (fun a =>
    a.feld_name == some "Target end" || a.feld_name == some "Fix Version/s"))

/-- creation_date_str: the day of the smallest timestamp over all of
the issue's activities. -/
def tcCreationDay (issueActivities : List Activity) : String :=
  take10 (pyMinStr "" (issueActivities.map (fun a => a.zeitstempel_iso)))

/-- The observation days in order of first appearance in the sorted
tracked activities. -/
def tcDays (relevant : List Activity) : List String :=
  firstOccurAux [] (relevant.map (fun a => take10 a.zeitstempel_iso))

/-- The per-issue detail analysis of TimeCreepAnalyzer.analyze: empty
for an issue without activities or without tracked-field activities,
else the day loop from empty states, with the collected events sorted
by day. -/
def tcAnalyzeIssue (issueKey : String) (issueActivities : List Activity) : List TCEvent :=
  match issueActivities with
  | [] => []
  | _ :: _ =>
    let relevant := tcRelevant issueActivities
    if relevant.isEmpty then []
    else
      isortBy (fun e1 e2 => pyStrLe e1.timestamp e2.timestamp)
        (tcDayLoop (tcCreationDay issueActivities) issueKey relevant (tcDays relevant)
          initTCStates).1

/-- Fixture store: a root Business Epic with a rejected child A (whose
own child D is reachable only through A or through the healthy branches
B and E), two healthy Epic children B and E sharing the Story D, a
non-whitelisted relation towards C, and a linked back-edge B to R. -/
def fixStore : Store := [
  ("R", { issue_type := "Business Epic", resolution := none,
          issue_links := some [
            { relation_type := some "child", key := some "A" },
            { relation_type := some "child", key := some "B" },
            { relation_type := some "child", key := some "E" },
            { relation_type := some "other", key := some "C" }] }),
  ("A", { issue_type := "Epic", resolution := some "Rejected",
          issue_links := some [{ relation_type := some "child", key := some "D" }] }),
  ("B", { issue_type := "Epic", resolution := none,
          issue_links := some [{ relation_type := some "child", key := some "D" },
                               { relation_type := some "linked", key := some "R" }] }),
  ("C", { issue_type := "Epic", resolution := none, issue_links := none }),
  ("D", { issue_type := "Story", resolution := none, issue_links := some [] }),
  ("E", { issue_type := "Epic", resolution := none,
          issue_links := some [{ relation_type := some "child", key := some "D" }] })]

/-- Fixture whitelist. -/
def fixWl : Whitelist := [("Business Epic", ["child"]), ("Epic", ["child"]), ("Story", [])]

/-- The tree built from the fixture store. -/
def fixTree : TreeState :=
  { nodes := ["R", "B", "D", "E"],
    edges := [("R", "B"), ("B", "D"), ("R", "E"), ("E", "D")],
    visited := ["E", "D", "B", "R"],
    trace := ["R", "B", "D", "E"] }

/-- Fixture store with a 3-cycle of linked relations. -/
def cycStore : Store := [
  ("R", { issue_type := "Business Epic", resolution := none,
          issue_links := some [{ relation_type := some "linked", key := some "A" }] }),
  ("A", { issue_type := "Business Epic", resolution := none,
          issue_links := some [{ relation_type := some "linked", key := some "B" }] }),
  ("B", { issue_type := "Business Epic", resolution := none,
          issue_links := some [{ relation_type := some "linked", key := some "R" }] })]

/-- Whitelist following linked relations from Business Epics. -/
def cycWl : Whitelist := [("Business Epic", ["linked"])]

/-- The tree built from the cyclic store. -/
def cycTree : TreeState :=
  { nodes := ["R", "A", "B"],
    edges := [("R", "A"), ("A", "B"), ("B", "R")],
    visited := ["B", "A", "R"],
    trace := ["R", "A", "B"] }

/-- A concrete monotone instant reading of timestamp strings, used to
evaluate the duration analysis on closed inputs: the string length. -/
def lenInstant (s : String) : Int :=
  Int.ofNat s.data.length

/-- Fixture activity stream for the duration analysis: one foreign event
and three events of epic E, whose timestamp lengths are 1, 2 and 3. -/
def actsC5 : List Activity := [
  { feld_name := some "Status", alter_wert := none, neuer_wert := some "FUNNEL",
    zeitstempel_iso := "zz", issue_key := "S" },
  { feld_name := none, alter_wert := none, neuer_wert := none,
    zeitstempel_iso := "a", issue_key := "E" },
  { feld_name := some "Status", alter_wert := some "FUNNEL", neuer_wert := some "ANALYSIS",
    zeitstempel_iso := "bb", issue_key := "E" },
  { feld_name := some "Status", alter_wert := some "ANALYSIS", neuer_wert := some "CLOSED",
    zeitstempel_iso := "ccc", issue_key := "E" }]

/-- Fixture details for the coding window: one Story and one Epic. -/
def detailsC6 : List (String × IssueDetails) :=
  [("S-1", { type := some "Story" }), ("E-1", { type := some "Epic" })]

/-- Fixture story activities with two RESOLVED status events. -/
def actsC6 : List Activity := [
  { feld_name := some "Status", alter_wert := none, neuer_wert := some "In Progress",
    zeitstempel_iso := "t0", issue_key := "S-1" },
  { feld_name := some "Status", alter_wert := some "In Progress", neuer_wert := some "Resolved",
    zeitstempel_iso := "t1", issue_key := "S-1" },
  { feld_name := some "Status", alter_wert := some "Resolved", neuer_wert := some "Resolved",
    zeitstempel_iso := "t2", issue_key := "S-1" }]

/-- Fixture details for the backlog analysis: a single Story. -/
def detailsC8 : List (String × IssueDetails) :=
  [("S-1", { type := some "Story" })]

/-- Fixture activities for the backlog analysis: one Status event whose
raw new value carries the workflow encoding wf:Resolved [10]. -/
def actsC8 : List Activity := [
  { feld_name := some "Status", alter_wert := none, neuer_wert := some "wf:Resolved [10]",
    zeitstempel_iso := "t1", issue_key := "S-1" }]

/-- A timestamp at UTC offset +02:00 denoting 2025-06-01 08:00 UTC. -/
def tsA7 : IsoTs :=
  { year := 2025, month := 6, day := 1, hour := 10, minute := 0, second := 0,
    offsetMinutes := 120 }

/-- A timestamp at UTC offset +01:00 denoting 2025-06-01 08:30 UTC,
half an hour after tsA7 but lexicographically below its rendering. -/
def tsB7 : IsoTs :=
  { year := 2025, month := 6, day := 1, hour := 9, minute := 30, second := 0,
    offsetMinutes := 60 }

/-- The stored activity of issue A in the aggregator fixture. -/
def evA7 : Activity :=
  { feld_name := some "Status", alter_wert := none, neuer_wert := some "x",
    zeitstempel_iso := isoRender tsA7, issue_key := "" }

/-- The stored activity of issue B in the aggregator fixture. -/
def evB7 : Activity :=
  { feld_name := some "Status", alter_wert := none, neuer_wert := some "y",
    zeitstempel_iso := isoRender tsB7, issue_key := "" }

/-- Fixture activity store for the aggregator: issues A and B with one
event each. -/
def actStoreC7 : ActivityStore := [("A", [evA7]), ("B", [evB7])]

/-- Fixture Target end observation with a parseable ISO date. -/
def actC9 : Activity :=
  { feld_name := some "Target end", alter_wert := none, neuer_wert := some "2025-03-31",
    zeitstempel_iso := "2025-02-01T10:00:00+00:00", issue_key := "K-1" }

/-- Fixture Target end observation whose value parses to no date. -/
def actC10bad : Activity :=
  { feld_name := some "Target end", alter_wert := none, neuer_wert := some "garbage",
    zeitstempel_iso := "2025-02-02T10:00:00+00:00", issue_key := "K-1" }

/-- Specification-side helper: the state value contributed by one day's
observation of one tracked field, if that day observes the field and
the observed value parses. -/
def obsVal (relevant : List Activity) (d f : String) :
    Option (Option String × (DateD × DateD)) :=
  (dailyLastFor relevant d f).bind (fun a =>
    (parseForField f a.neuer_wert).map (fun nr =>
      (normalizeFixVersionString a.neuer_wert, nr)))

/-!
Theorems. First, generic helper lemmas, then the Tree Builder
development, then the analyzers.
-/

theorem tail_suffix_of_cons {α : Type} {x : α} {t l : List α} (h : (x :: t) <:+ l) : t <:+ l := by
  obtain ⟨p, hp⟩ := h
  exact ⟨p ++ [x], by simpa using hp⟩

theorem filter_length_lt {α : Type} {p q : α → Bool} (l : List α)
    (himp : ∀ a, p a = true → q a = true) (x : α) (hx : x ∈ l)
    (hqx : q x = true) (hpx : p x = false) :
    (l.filter p).length < (l.filter q).length := by
  have hsub : (l.filter p).Sublist (l.filter q) := List.monotone_filter_right l himp
  rcases Nat.lt_or_ge (l.filter p).length (l.filter q).length with h | h
  · exact h
  · exfalso
    have heq : l.filter p = l.filter q :=
      hsub.eq_of_length (Nat.le_antisymm hsub.length_le h)
    have hxq : x ∈ l.filter q := List.mem_filter.mpr ⟨hx, hqx⟩
    rw [← heq] at hxq
    have := (List.mem_filter.mp hxq).2
    rw [hpx] at this
    exact Bool.false_ne_true this

theorem addNode_visited (k : String) (s : TreeState) : (addNode k s).visited = s.visited := by
  unfold addNode; split <;> rfl

theorem addNode_trace (k : String) (s : TreeState) : (addNode k s).trace = s.trace := by
  unfold addNode; split <;> rfl

theorem addNode_edges (k : String) (s : TreeState) : (addNode k s).edges = s.edges := by
  unfold addNode; split <;> rfl

theorem addNode_mem_nodes (k a : String) (s : TreeState) :
    a ∈ (addNode k s).nodes ↔ a ∈ s.nodes ∨ a = k := by
  unfold addNode
  split
  · constructor
    · exact fun h => Or.inl h
    · rintro (h | rfl)
      · exact h
      · assumption
  · simp

theorem addEdge_visited (e : String × String) (s : TreeState) :
    (addEdge e s).visited = s.visited := by
  unfold addEdge; split <;> rfl

theorem addEdge_trace (e : String × String) (s : TreeState) :
    (addEdge e s).trace = s.trace := by
  unfold addEdge; split <;> rfl

theorem addEdge_nodes (e : String × String) (s : TreeState) :
    (addEdge e s).nodes = s.nodes := by
  unfold addEdge; split <;> rfl

theorem addEdge_mem_edges (e x : String × String) (s : TreeState) :
    x ∈ (addEdge e s).edges ↔ x ∈ s.edges ∨ x = e := by
  unfold addEdge
  split
  · constructor
    · exact fun h => Or.inl h
    · rintro (h | rfl)
      · exact h
      · assumption
  · simp

theorem markVisited_visited (pk : String) (s : TreeState) :
    (markVisited pk s).visited = pk :: s.visited := rfl

theorem markVisited_trace (pk : String) (s : TreeState) :
    (markVisited pk s).trace = s.trace ++ [pk] := rfl

theorem markVisited_nodes (pk : String) (s : TreeState) :
    (markVisited pk s).nodes = s.nodes := rfl

theorem markVisited_edges (pk : String) (s : TreeState) :
    (markVisited pk s).edges = s.edges := rfl

theorem fetch_mem_storeKeys {store : Store} {pk : String} {pd : IssueData}
    (h : fetch store pk = some pd) : pk ∈ storeKeys store := by
  unfold fetch at h
  rcases Option.map_eq_some'.mp h with ⟨p, hfind, _⟩
  have hmem := List.mem_of_find?_eq_some hfind
  have hbeq := List.find?_some hfind
  have hpk : p.1 = pk := by simpa using hbeq
  unfold storeKeys
  exact List.mem_dedup.mpr (hpk ▸ List.mem_map_of_mem (fun q => q.1) hmem)

theorem linksLen_le_maxLinks_of_mem {q : String × IssueData} :
    ∀ store : Store, q ∈ store →
      (match q.2.issue_links with
       | some ls1 => ls1.length
       | none => 0) ≤ maxLinks store := by
  intro store
  induction store with
  | nil => intro hq; cases hq
  | cons r rest ih =>
    intro hq
    rcases List.mem_cons.mp hq with hq1 | hq1
    · subst hq1
      exact Nat.le_max_right _ _
    · exact Nat.le_trans (ih hq1) (Nat.le_max_left _ _)

theorem links_length_le_maxLinks {store : Store} {pk : String} {pd : IssueData}
    {ls : List Link} (h : fetch store pk = some pd) (hl : pd.issue_links = some ls) :
    ls.length ≤ maxLinks store := by
  unfold fetch at h
  rcases Option.map_eq_some'.mp h with ⟨p, hfind, hp2⟩
  have hmem := List.mem_of_find?_eq_some hfind
  have := linksLen_le_maxLinks_of_mem store hmem
  rw [hp2, hl] at this
  exact this

theorem unexpanded_anti {store : Store} {v w : List String}
    (h : ∀ k, k ∈ v → k ∈ w) : unexpanded store w ≤ unexpanded store v := by
  unfold unexpanded
  exact (List.monotone_filter_right _ (by
    intro a ha
    simp only [decide_eq_true_eq] at *
    exact fun hav => ha (h a hav))).length_le

theorem unexpanded_cons_lt {store : Store} {v : List String} {pk : String}
    (hmem : pk ∈ storeKeys store) (hnv : pk ∉ v) :
    unexpanded store (pk :: v) < unexpanded store v := by
  unfold unexpanded
  refine filter_length_lt _ ?_ pk hmem ?_ ?_
  · intro a ha
    simp only [decide_eq_true_eq, List.mem_cons] at *
    exact fun hav => ha (Or.inr hav)
  · simpa using hnv
  · simp

theorem jobMeasure_pos (store : Store) (job : TreeJob) (v : List String) :
    1 ≤ jobMeasure store job v := by
  cases job <;> simp [jobMeasure]

theorem measure_expand_to_links {store : Store} {pk : String} {pd : IssueData}
    {fullLs : List Link} {allowed : List String} {v : List String}
    (hf : fetch store pk = some pd) (hl : pd.issue_links = some fullLs) (hnv : pk ∉ v) :
    jobMeasure store (TreeJob.links pk allowed fullLs) (pk :: v) <
      jobMeasure store (TreeJob.expand pk) v := by
  have h1 : unexpanded store (pk :: v) < unexpanded store v :=
    unexpanded_cons_lt (fetch_mem_storeKeys hf) hnv
  have h2 : fullLs.length ≤ maxLinks store := links_length_le_maxLinks hf hl
  simp only [jobMeasure]
  have h3 : unexpanded store (pk :: v) + 1 ≤ unexpanded store v := h1
  have h4 : (unexpanded store (pk :: v) + 1) * (maxLinks store + 2) ≤
      unexpanded store v * (maxLinks store + 2) :=
    Nat.mul_le_mul_right _ h3
  rw [Nat.add_mul, Nat.one_mul] at h4
  omega

theorem measure_links_cons_rest {store : Store} {pk : String} {allowed : List String}
    {link : Link} {rest : List Link} {v : List String} :
    jobMeasure store (TreeJob.links pk allowed rest) v <
      jobMeasure store (TreeJob.links pk allowed (link :: rest)) v := by
  simp only [jobMeasure, List.length_cons]
  omega

theorem measure_links_to_expand {store : Store} {pk ck : String} {allowed : List String}
    {link : Link} {rest : List Link} {v : List String} :
    jobMeasure store (TreeJob.expand ck) v <
      jobMeasure store (TreeJob.links pk allowed (link :: rest)) v := by
  simp only [jobMeasure, List.length_cons]
  omega

theorem measure_links_rest_after {store : Store} {pk : String} {allowed : List String}
    {link : Link} {rest : List Link} {v w : List String}
    (hsub : ∀ k, k ∈ v → k ∈ w) :
    jobMeasure store (TreeJob.links pk allowed rest) w <
      jobMeasure store (TreeJob.links pk allowed (link :: rest)) v := by
  have h1 : unexpanded store w ≤ unexpanded store v := unexpanded_anti hsub
  have h2 : unexpanded store w * (maxLinks store + 2) ≤
      unexpanded store v * (maxLinks store + 2) := Nat.mul_le_mul_right _ h1
  simp only [jobMeasure, List.length_cons]
  omega

theorem treeGo_visited_mono (store : Store) (wl : Whitelist) (ir : Bool) :
    ∀ (fuel : Nat) (job : TreeJob) (s : TreeState) (k : String),
      k ∈ s.visited → k ∈ (treeGo store wl ir fuel job s).visited := by
  intro fuel
  induction fuel with
  | zero => intro job s k hk; simpa [treeGo] using hk
  | succ fuel ih =>
    intro job s k hk
    cases job with
    | expand pk =>
      simp only [treeGo]
      split
      · exact hk
      · split
        · exact List.mem_cons_of_mem _ hk
        · split
          · exact List.mem_cons_of_mem _ hk
          · split
            · exact List.mem_cons_of_mem _ hk
            · exact ih _ _ _ (List.mem_cons_of_mem _ hk)
    | links pk allowed ls =>
      cases ls with
      | nil => simpa [treeGo] using hk
      | cons link rest =>
        simp only [treeGo]
        split
        · exact ih _ _ _ hk
        · split
          · split
            · exact ih _ _ _ hk
            · split
              · exact ih _ _ _ hk
              · split
                · exact ih _ _ _ hk
                · split
                  · exact ih _ _ _ hk
                  · refine ih _ _ _ (ih _ _ _ ?_)
                    rw [addEdge_visited, addNode_visited]
                    exact hk
          · exact ih _ _ _ hk

theorem qualifiesB_eq_true_iff {store : Store} {allowed : List String} {ir : Bool}
    {link : Link} {c : String} :
    qualifiesB store allowed ir link c = true ↔
      (∃ rt, link.relation_type = some rt ∧ allowed.contains rt = true) ∧
      link.key = some c ∧ ¬ c = "" ∧
      ∃ cd, fetch store c = some cd ∧
        (ir = true ∨ resolutionSkipped cd.resolution = false) := by
  unfold qualifiesB
  cases hrel : link.relation_type with
  | none => simp
  | some rt =>
    cases hfc : fetch store c with
    | none => simp [Bool.and_eq_true]
    | some cd =>
      simp only [Bool.and_eq_true, Bool.or_eq_true, Bool.not_eq_true', beq_iff_eq]
      constructor
      · rintro ⟨⟨⟨h1, h2⟩, h3⟩, h4⟩
        refine ⟨⟨rt, rfl, h1⟩, h2, by simpa using h3, cd, rfl, ?_⟩
        rcases h4 with h4 | h4
        · exact Or.inl h4
        · exact Or.inr (by simpa using h4)
      · rintro ⟨⟨rt1, hrt1, hcont⟩, hkey, hc, cd1, hcd1, hres⟩
        cases hrt1
        refine ⟨⟨⟨hcont, hkey⟩, by simpa using hc⟩, ?_⟩
        injection hcd1 with hcd1
        subst hcd1
        rcases hres with hres | hres
        · exact Or.inl hres
        · exact Or.inr (by simpa using hres)

theorem qualifiesB_key {store : Store} {allowed : List String} {ir : Bool}
    {link : Link} {c : String} (h : qualifiesB store allowed ir link c = true) :
    link.key = some c :=
  (qualifiesB_eq_true_iff.mp h).2.1

theorem adm_iff {store : Store} {wl : Whitelist} {ir : Bool} {pk : String}
    {pd : IssueData} {fullLs : List Link} {c : String}
    (hf : fetch store pk = some pd) (hl : pd.issue_links = some fullLs) :
    Adm store wl ir pk c ↔ QualAny store (wlGet wl pd.issue_type) ir fullLs c := by
  unfold Adm admissibleB QualAny
  rw [hf]
  show (match pd.issue_links with
        | none => false
        | some ls => ls.any fun link => qualifiesB store (wlGet wl pd.issue_type) ir link c) =
      true ↔ _
  rw [hl]
  simp [List.any_eq_true]

theorem adm_false_of_fetch_none {store : Store} {wl : Whitelist} {ir : Bool}
    {pk c : String} (hf : fetch store pk = none) : ¬ Adm store wl ir pk c := by
  unfold Adm admissibleB
  rw [hf]
  simp

theorem adm_false_of_links_none {store : Store} {wl : Whitelist} {ir : Bool}
    {pk c : String} {pd : IssueData} (hf : fetch store pk = some pd)
    (hl : pd.issue_links = none) : ¬ Adm store wl ir pk c := by
  unfold Adm admissibleB
  rw [hf]
  show ¬ (match pd.issue_links with
          | none => false
          | some ls => ls.any fun link => qualifiesB store (wlGet wl pd.issue_type) ir link c) =
      true
  rw [hl]
  simp

theorem qualAny_false_of_allowed_empty {store : Store} {ir : Bool}
    {ls : List Link} {c : String} : ¬ QualAny store [] ir ls c := by
  rintro ⟨link, _, hq⟩
  rcases (qualifiesB_eq_true_iff.mp hq).1 with ⟨rt, _, hcont⟩
  simp at hcont

theorem adm_false_of_allowed_empty {store : Store} {wl : Whitelist} {ir : Bool}
    {pk c : String} {pd : IssueData} {fullLs : List Link}
    (hf : fetch store pk = some pd) (hl : pd.issue_links = some fullLs)
    (he : wlGet wl pd.issue_type = []) : ¬ Adm store wl ir pk c := by
  rw [adm_iff hf hl, he]
  exact qualAny_false_of_allowed_empty

theorem postExpand_skip {store : Store} {wl : Whitelist} {ir : Bool} {pk : String}
    {s : TreeState} (h : pk ∈ s.visited) : PostExpand store wl ir pk s s where
  vis_mono := fun _ hk => hk
  self_vis := h
  sound := fun _ hk => Or.inl hk
  closed := fun _ hq hq2 _ _ => absurd hq2 hq
  edges_iff := fun e => by
    constructor
    · exact fun he => Or.inl he
    · rintro (he | ⟨h1, h2, _⟩)
      · exact he
      · exact absurd h2 h1
  nodes_iff := fun k => by
    constructor
    · exact fun hk => Or.inl hk
    · rintro (hk | ⟨q, h1, h2, _⟩)
      · exact hk
      · exact absurd h2 h1
  trace_align := fun h => h
  vis_nodup := fun h => h

theorem postExpand_noAdm {store : Store} {wl : Whitelist} {ir : Bool} {pk : String}
    {s : TreeState} (hnv : pk ∉ s.visited)
    (hAdm : ∀ c, ¬ Adm store wl ir pk c) :
    PostExpand store wl ir pk s (markVisited pk s) where
  vis_mono := fun _ hk => List.mem_cons_of_mem _ hk
  self_vis := List.mem_cons_self _ _
  sound := fun k hk => by
    rcases List.mem_cons.mp hk with rfl | hk
    · exact Or.inr Relation.ReflTransGen.refl
    · exact Or.inl hk
  closed := fun q hq hq2 c hc => by
    rcases List.mem_cons.mp hq2 with rfl | hq2
    · exact absurd hc (hAdm c)
    · exact absurd hq2 hq
  edges_iff := fun e => by
    rw [markVisited_edges]
    constructor
    · exact fun he => Or.inl he
    · rintro (he | ⟨h1, h2, h3⟩)
      · exact he
      · rcases List.mem_cons.mp h2 with h2 | h2
        · rw [h2] at h3
          exact absurd h3 (hAdm e.2)
        · exact absurd h2 h1
  nodes_iff := fun k => by
    rw [markVisited_nodes]
    constructor
    · exact fun hk => Or.inl hk
    · rintro (hk | ⟨q, h1, h2, h3⟩)
      · exact hk
      · rcases List.mem_cons.mp h2 with rfl | h2
        · exact absurd h3 (hAdm k)
        · exact absurd h2 h1
  trace_align := fun h => by
    rw [markVisited_trace, markVisited_visited, List.reverse_append]
    simp [h]
  vis_nodup := fun h => List.nodup_cons.mpr ⟨hnv, h⟩

theorem postLinks_nil {store : Store} {wl : Whitelist} {ir : Bool} {pk : String}
    {allowed : List String} {s : TreeState} :
    PostLinks store wl ir pk allowed [] s s where
  vis_mono := fun _ hk => hk
  sound := fun _ hk => Or.inl hk
  closed := fun _ hq hq2 _ _ => absurd hq2 hq
  childdone := fun c hc => by
    rcases hc with ⟨link, hmem, _⟩
    cases hmem
  edges_iff := fun e => by
    constructor
    · exact fun he => Or.inl he
    · rintro (he | ⟨h1, h2, _⟩ | ⟨_, link, hmem, _⟩)
      · exact he
      · exact absurd h2 h1
      · cases hmem
  nodes_iff := fun k => by
    constructor
    · exact fun hk => Or.inl hk
    · rintro (hk | ⟨q, h1, h2, _⟩ | ⟨link, hmem, _⟩)
      · exact hk
      · exact absurd h2 h1
      · cases hmem
  trace_align := fun h => h
  vis_nodup := fun h => h

theorem qualAny_cons {store : Store} {allowed : List String} {ir : Bool}
    {link : Link} {rest : List Link} {c : String} :
    QualAny store allowed ir (link :: rest) c ↔
      qualifiesB store allowed ir link c = true ∨ QualAny store allowed ir rest c := by
  unfold QualAny
  constructor
  · rintro ⟨l, hmem, hq⟩
    rcases List.mem_cons.mp hmem with rfl | hmem
    · exact Or.inl hq
    · exact Or.inr ⟨l, hmem, hq⟩
  · rintro (hq | ⟨l, hmem, hq⟩)
    · exact ⟨link, List.mem_cons_self _ _, hq⟩
    · exact ⟨l, List.mem_cons_of_mem _ hmem, hq⟩

theorem postLinks_skipLink {store : Store} {wl : Whitelist} {ir : Bool} {pk : String}
    {allowed : List String} {link : Link} {rest : List Link} {s t : TreeState}
    (hlf : ∀ c, ¬ qualifiesB store allowed ir link c = true)
    (pl : PostLinks store wl ir pk allowed rest s t) :
    PostLinks store wl ir pk allowed (link :: rest) s t where
  vis_mono := pl.vis_mono
  sound := fun k hk => by
    rcases pl.sound k hk with hk1 | ⟨c, hc, hr⟩
    · exact Or.inl hk1
    · exact Or.inr ⟨c, qualAny_cons.mpr (Or.inr hc), hr⟩
  closed := pl.closed
  childdone := fun c hc => by
    rcases qualAny_cons.mp hc with hq | hq
    · exact absurd hq (hlf c)
    · exact pl.childdone c hq
  edges_iff := fun e => by
    rw [pl.edges_iff e]
    constructor
    · rintro (he | he | ⟨h1, h2⟩)
      · exact Or.inl he
      · exact Or.inr (Or.inl he)
      · exact Or.inr (Or.inr ⟨h1, qualAny_cons.mpr (Or.inr h2)⟩)
    · rintro (he | he | ⟨h1, h2⟩)
      · exact Or.inl he
      · exact Or.inr (Or.inl he)
      · rcases qualAny_cons.mp h2 with hq | hq
        · exact absurd hq (hlf e.2)
        · exact Or.inr (Or.inr ⟨h1, hq⟩)
  nodes_iff := fun k => by
    rw [pl.nodes_iff k]
    constructor
    · rintro (hk | hk | hk)
      · exact Or.inl hk
      · exact Or.inr (Or.inl hk)
      · exact Or.inr (Or.inr (qualAny_cons.mpr (Or.inr hk)))
    · rintro (hk | hk | hk)
      · exact Or.inl hk
      · exact Or.inr (Or.inl hk)
      · rcases qualAny_cons.mp hk with hq | hq
        · exact absurd hq (hlf k)
        · exact Or.inr (Or.inr hq)
  trace_align := pl.trace_align
  vis_nodup := pl.vis_nodup

theorem postLinks_step {store : Store} {wl : Whitelist} {ir : Bool} {pk ck : String}
    {allowed : List String} {link : Link} {rest : List Link} {s r1 t : TreeState}
    (hq : qualifiesB store allowed ir link ck = true)
    (pe : PostExpand store wl ir ck (addEdge (pk, ck) (addNode ck s)) r1)
    (pl : PostLinks store wl ir pk allowed rest r1 t) :
    PostLinks store wl ir pk allowed (link :: rest) s t := by
  have hv2 : (addEdge (pk, ck) (addNode ck s)).visited = s.visited := by
    rw [addEdge_visited, addNode_visited]
  have ht2 : (addEdge (pk, ck) (addNode ck s)).trace = s.trace := by
    rw [addEdge_trace, addNode_trace]
  have hn2 : ∀ a, a ∈ (addEdge (pk, ck) (addNode ck s)).nodes ↔ a ∈ s.nodes ∨ a = ck := by
    intro a
    rw [addEdge_nodes]
    exact addNode_mem_nodes ck a s
  have he2 : ∀ x, x ∈ (addEdge (pk, ck) (addNode ck s)).edges ↔
      x ∈ s.edges ∨ x = (pk, ck) := by
    intro x
    rw [addEdge_mem_edges, addNode_edges]
  have hmono_r1 : ∀ k, k ∈ s.visited → k ∈ r1.visited := by
    intro k hk
    exact pe.vis_mono k (by rw [hv2]; exact hk)
  refine ⟨?_, ?_, ?_, ?_, ?_, ?_, ?_, ?_⟩
  · exact fun k hk => pl.vis_mono k (hmono_r1 k hk)
  · intro k hk
    rcases pl.sound k hk with hk1 | ⟨c, hc, hr⟩
    · rcases pe.sound k hk1 with hk2 | hr
      · exact Or.inl (by rw [hv2] at hk2; exact hk2)
      · exact Or.inr ⟨ck, qualAny_cons.mpr (Or.inl hq), hr⟩
    · exact Or.inr ⟨c, qualAny_cons.mpr (Or.inr hc), hr⟩
  · intro q hqv hqt c hc
    by_cases hq1 : q ∈ r1.visited
    · have := pe.closed q (by rw [hv2]; exact hqv) hq1 c hc
      exact pl.vis_mono c this
    · exact pl.closed q hq1 hqt c hc
  · intro c hc
    rcases qualAny_cons.mp hc with hq1 | hq1
    · have hkey1 := qualifiesB_key hq
      have hkey2 := qualifiesB_key hq1
      rw [hkey1] at hkey2
      injection hkey2 with hkey2
      rw [← hkey2]
      exact pl.vis_mono ck pe.self_vis
    · exact pl.childdone c hq1
  · intro e
    rw [pl.edges_iff e]
    constructor
    · rintro (he | ⟨h1, h2, h3⟩ | ⟨h1, h2⟩)
      · rcases (pe.edges_iff e).mp he with he1 | ⟨h1, h2, h3⟩
        · rcases (he2 e).mp he1 with he3 | rfl
          · exact Or.inl he3
          · exact Or.inr (Or.inr ⟨rfl, qualAny_cons.mpr (Or.inl hq)⟩)
        · rw [hv2] at h1
          exact Or.inr (Or.inl ⟨h1, pl.vis_mono _ h2, h3⟩)
      · refine Or.inr (Or.inl ⟨?_, h2, h3⟩)
        exact fun hmem => h1 (hmono_r1 _ hmem)
      · exact Or.inr (Or.inr ⟨h1, qualAny_cons.mpr (Or.inr h2)⟩)
    · rintro (he | ⟨h1, h2, h3⟩ | ⟨h1, h2⟩)
      · exact Or.inl ((pe.edges_iff e).mpr (Or.inl ((he2 e).mpr (Or.inl he))))
      · by_cases hq1 : e.1 ∈ r1.visited
        · refine Or.inl ((pe.edges_iff e).mpr (Or.inr ⟨?_, hq1, h3⟩))
          rw [hv2]
          exact h1
        · exact Or.inr (Or.inl ⟨hq1, h2, h3⟩)
      · rcases qualAny_cons.mp h2 with hq1 | hq1
        · have hkey1 := qualifiesB_key hq
          have hkey2 := qualifiesB_key hq1
          rw [hkey1] at hkey2
          injection hkey2 with hkey2
          refine Or.inl ((pe.edges_iff e).mpr (Or.inl ((he2 e).mpr (Or.inr ?_))))
          have : e = (e.1, e.2) := rfl
          rw [this, h1, ← hkey2]
        · exact Or.inr (Or.inr ⟨h1, hq1⟩)
  · intro k
    rw [pl.nodes_iff k]
    constructor
    · rintro (hk | ⟨q, h1, h2, h3⟩ | hk)
      · rcases (pe.nodes_iff k).mp hk with hk1 | ⟨q, h1, h2, h3⟩
        · rcases (hn2 k).mp hk1 with hk3 | rfl
          · exact Or.inl hk3
          · exact Or.inr (Or.inr (qualAny_cons.mpr (Or.inl hq)))
        · rw [hv2] at h1
          exact Or.inr (Or.inl ⟨q, h1, pl.vis_mono _ h2, h3⟩)
      · refine Or.inr (Or.inl ⟨q, ?_, h2, h3⟩)
        exact fun hmem => h1 (hmono_r1 _ hmem)
      · exact Or.inr (Or.inr (qualAny_cons.mpr (Or.inr hk)))
    · rintro (hk | ⟨q, h1, h2, h3⟩ | hk)
      · exact Or.inl ((pe.nodes_iff k).mpr (Or.inl ((hn2 k).mpr (Or.inl hk))))
      · by_cases hq1 : q ∈ r1.visited
        · refine Or.inl ((pe.nodes_iff k).mpr (Or.inr ⟨q, ?_, hq1, h3⟩))
          rw [hv2]
          exact h1
        · exact Or.inr (Or.inl ⟨q, hq1, h2, h3⟩)
      · rcases qualAny_cons.mp hk with hq1 | hq1
        · have hkey1 := qualifiesB_key hq
          have hkey2 := qualifiesB_key hq1
          rw [hkey1] at hkey2
          injection hkey2 with hkey2
          subst hkey2
          exact Or.inl ((pe.nodes_iff ck).mpr (Or.inl ((hn2 ck).mpr (Or.inr rfl))))
        · exact Or.inr (Or.inr hq1)
  · intro h
    refine pl.trace_align (pe.trace_align ?_)
    rw [ht2, hv2]
    exact h
  · intro h
    refine pl.vis_nodup (pe.vis_nodup ?_)
    rw [hv2]
    exact h

theorem postExpand_of_links {store : Store} {wl : Whitelist} {ir : Bool} {pk : String}
    {pd : IssueData} {fullLs : List Link} {s t : TreeState}
    (hnv : pk ∉ s.visited) (hf : fetch store pk = some pd)
    (hl : pd.issue_links = some fullLs)
    (pl : PostLinks store wl ir pk (wlGet wl pd.issue_type) fullLs (markVisited pk s) t) :
    PostExpand store wl ir pk s t := by
  have hadm : ∀ c, Adm store wl ir pk c ↔
      QualAny store (wlGet wl pd.issue_type) ir fullLs c := fun c => adm_iff hf hl
  have hv1 : (markVisited pk s).visited = pk :: s.visited := rfl
  have hself : pk ∈ t.visited := pl.vis_mono pk (by rw [hv1]; exact List.mem_cons_self _ _)
  refine ⟨?_, hself, ?_, ?_, ?_, ?_, ?_, ?_⟩
  · intro k hk
    exact pl.vis_mono k (by rw [hv1]; exact List.mem_cons_of_mem _ hk)
  · intro k hk
    rcases pl.sound k hk with hk1 | ⟨c, hc, hr⟩
    · rw [hv1] at hk1
      rcases List.mem_cons.mp hk1 with rfl | hk1
      · exact Or.inr Relation.ReflTransGen.refl
      · exact Or.inl hk1
    · exact Or.inr (Relation.ReflTransGen.head ((hadm c).mpr hc) hr)
  · intro q hqv hqt c hc
    by_cases hq1 : q = pk
    · subst hq1
      exact pl.childdone c ((hadm c).mp hc)
    · refine pl.closed q ?_ hqt c hc
      rw [hv1]
      intro hmem
      rcases List.mem_cons.mp hmem with h1 | h1
      · exact hq1 h1
      · exact hqv h1
  · intro e
    rw [pl.edges_iff e, markVisited_edges]
    constructor
    · rintro (he | ⟨h1, h2, h3⟩ | ⟨h1, h2⟩)
      · exact Or.inl he
      · refine Or.inr ⟨?_, h2, h3⟩
        rw [hv1] at h1
        exact fun hmem => h1 (List.mem_cons_of_mem _ hmem)
      · exact Or.inr ⟨by rw [h1]; exact hnv, by rw [h1]; exact hself,
          by rw [h1]; exact (hadm e.2).mpr h2⟩
    · rintro (he | ⟨h1, h2, h3⟩)
      · exact Or.inl he
      · by_cases hq1 : e.1 = pk
        · exact Or.inr (Or.inr ⟨hq1, (hadm e.2).mp (by rw [← hq1]; exact h3)⟩)
        · refine Or.inr (Or.inl ⟨?_, h2, h3⟩)
          rw [hv1]
          intro hmem
          rcases List.mem_cons.mp hmem with hm | hm
          · exact hq1 hm
          · exact h1 hm
  · intro k
    rw [pl.nodes_iff k, markVisited_nodes]
    constructor
    · rintro (hk | ⟨q, h1, h2, h3⟩ | hk)
      · exact Or.inl hk
      · refine Or.inr ⟨q, ?_, h2, h3⟩
        rw [hv1] at h1
        exact fun hmem => h1 (List.mem_cons_of_mem _ hmem)
      · exact Or.inr ⟨pk, hnv, hself, (hadm k).mpr hk⟩
    · rintro (hk | ⟨q, h1, h2, h3⟩)
      · exact Or.inl hk
      · by_cases hq1 : q = pk
        · subst hq1
          exact Or.inr (Or.inr ((hadm k).mp h3))
        · refine Or.inr (Or.inl ⟨q, ?_, h2, h3⟩)
          rw [hv1]
          intro hmem
          rcases List.mem_cons.mp hmem with hm | hm
          · exact hq1 hm
          · exact h1 hm
  · intro h
    refine pl.trace_align ?_
    rw [markVisited_trace, markVisited_visited, List.reverse_append]
    simp [h]
  · intro h
    refine pl.vis_nodup ?_
    rw [hv1]
    exact List.nodup_cons.mpr ⟨hnv, h⟩

theorem adm_false_of_wl_empty {store : Store} {wl : Whitelist} {ir : Bool}
    {pk c : String} {pd : IssueData} (hf : fetch store pk = some pd)
    (he : wlGet wl pd.issue_type = []) : ¬ Adm store wl ir pk c := by
  cases hl : pd.issue_links with
  | none => exact adm_false_of_links_none hf hl
  | some fullLs => exact adm_false_of_allowed_empty hf hl he

theorem treeGo_spec (store : Store) (wl : Whitelist) (ir : Bool) :
    ∀ (fuel : Nat) (job : TreeJob) (s : TreeState),
      jobMeasure store job s.visited ≤ fuel →
      (∀ pk, job = TreeJob.expand pk →
        PostExpand store wl ir pk s (treeGo store wl ir fuel job s)) ∧
      (∀ pk allowed ls, job = TreeJob.links pk allowed ls →
        LinksPre store wl pk allowed ls →
        PostLinks store wl ir pk allowed ls s (treeGo store wl ir fuel job s)) := by
  intro fuel
  induction fuel with
  | zero =>
    intro job s h
    have := jobMeasure_pos store job s.visited
    omega
  | succ fuel ih =>
    intro job s h
    constructor
    · rintro pk rfl
      by_cases hv : pk ∈ s.visited
      · have hred : treeGo store wl ir (fuel + 1) (TreeJob.expand pk) s = s := by
          simp [treeGo, hv]
        rw [hred]
        exact postExpand_skip hv
      · cases hf : fetch store pk with
        | none =>
          have hred : treeGo store wl ir (fuel + 1) (TreeJob.expand pk) s =
              markVisited pk s := by
            simp [treeGo, hv, hf]
          rw [hred]
          exact postExpand_noAdm hv (fun c => adm_false_of_fetch_none hf)
        | some pd =>
          by_cases he : (wlGet wl pd.issue_type).isEmpty = true
          · have hred : treeGo store wl ir (fuel + 1) (TreeJob.expand pk) s =
                markVisited pk s := by
              simp [treeGo, hv, hf, he]
            rw [hred]
            exact postExpand_noAdm hv
              (fun c => adm_false_of_wl_empty hf (List.isEmpty_iff.mp he))
          · cases hl : pd.issue_links with
            | none =>
              have hred : treeGo store wl ir (fuel + 1) (TreeJob.expand pk) s =
                  markVisited pk s := by
                simp [treeGo, hv, hf, he, hl]
              rw [hred]
              exact postExpand_noAdm hv (fun c => adm_false_of_links_none hf hl)
            | some fullLs =>
              have hred : treeGo store wl ir (fuel + 1) (TreeJob.expand pk) s =
                  treeGo store wl ir fuel
                    (TreeJob.links pk (wlGet wl pd.issue_type) fullLs) (markVisited pk s) := by
                simp [treeGo, hv, hf, he, hl]
              rw [hred]
              have hstep := @measure_expand_to_links store pk pd fullLs
                (wlGet wl pd.issue_type) s.visited hf hl hv
              have hmeas : jobMeasure store
                  (TreeJob.links pk (wlGet wl pd.issue_type) fullLs)
                  (markVisited pk s).visited ≤ fuel := by
                rw [markVisited_visited]
                simp only [jobMeasure] at h hstep ⊢
                omega
              have plfull := (ih _ _ hmeas).2 pk (wlGet wl pd.issue_type) fullLs rfl
                ⟨pd, fullLs, hf, hl, rfl, List.suffix_refl _⟩
              exact postExpand_of_links hv hf hl plfull
    · rintro pk allowed ls rfl hpre
      cases ls with
      | nil =>
        have hred : treeGo store wl ir (fuel + 1) (TreeJob.links pk allowed []) s = s := by
          simp [treeGo]
        rw [hred]
        exact postLinks_nil
      | cons link rest =>
        obtain ⟨pd, fullLs, hf, hl, hallow, hsuf⟩ := hpre
        have hpre_rest : LinksPre store wl pk allowed rest :=
          ⟨pd, fullLs, hf, hl, hallow, tail_suffix_of_cons hsuf⟩
        have hmeas_rest : jobMeasure store (TreeJob.links pk allowed rest) s.visited ≤ fuel := by
          have := @measure_links_cons_rest store pk allowed link rest s.visited
          omega
        cases hrel : link.relation_type with
        | none =>
          have hred : treeGo store wl ir (fuel + 1) (TreeJob.links pk allowed (link :: rest)) s =
              treeGo store wl ir fuel (TreeJob.links pk allowed rest) s := by
            simp [treeGo, hrel]
          rw [hred]
          refine postLinks_skipLink ?_ ((ih _ _ hmeas_rest).2 pk allowed rest rfl hpre_rest)
          intro c hc
          rcases (qualifiesB_eq_true_iff.mp hc).1 with ⟨rt, hrt, _⟩
          rw [hrel] at hrt
          cases hrt
        | some rt =>
          by_cases hcont : allowed.contains rt = true
          · cases hkey : link.key with
            | none =>
              have hred : treeGo store wl ir (fuel + 1)
                  (TreeJob.links pk allowed (link :: rest)) s =
                  treeGo store wl ir fuel (TreeJob.links pk allowed rest) s := by
                simp [treeGo, hrel, hcont, hkey]
              rw [hred]
              refine postLinks_skipLink ?_ ((ih _ _ hmeas_rest).2 pk allowed rest rfl hpre_rest)
              intro c hc
              have := qualifiesB_key hc
              rw [hkey] at this
              cases this
            | some ck =>
              by_cases hck : ck = ""
              · have hred : treeGo store wl ir (fuel + 1)
                    (TreeJob.links pk allowed (link :: rest)) s =
                    treeGo store wl ir fuel (TreeJob.links pk allowed rest) s := by
                  simp [treeGo, hrel, hcont, hkey, hck]
                rw [hred]
                refine postLinks_skipLink ?_ ((ih _ _ hmeas_rest).2 pk allowed rest rfl hpre_rest)
                intro c hc
                have hkc := qualifiesB_key hc
                rw [hkey] at hkc
                injection hkc with hkc
                have := (qualifiesB_eq_true_iff.mp hc).2.2.1
                rw [hkc] at hck
                exact this hck
              · cases hfc : fetch store ck with
                | none =>
                  have hred : treeGo store wl ir (fuel + 1)
                      (TreeJob.links pk allowed (link :: rest)) s =
                      treeGo store wl ir fuel (TreeJob.links pk allowed rest) s := by
                    simp [treeGo, hrel, hcont, hkey, hck, hfc]
                  rw [hred]
                  refine postLinks_skipLink ?_
                    ((ih _ _ hmeas_rest).2 pk allowed rest rfl hpre_rest)
                  intro c hc
                  have hkc := qualifiesB_key hc
                  rw [hkey] at hkc
                  injection hkc with hkc
                  rcases (qualifiesB_eq_true_iff.mp hc).2.2.2 with ⟨cd, hcd, _⟩
                  rw [← hkc, hfc] at hcd
                  cases hcd
                | some cd =>
                  by_cases hres : (!ir && resolutionSkipped cd.resolution) = true
                  · have hred : treeGo store wl ir (fuel + 1)
                        (TreeJob.links pk allowed (link :: rest)) s =
                        treeGo store wl ir fuel (TreeJob.links pk allowed rest) s := by
                      simp [treeGo, hrel, hcont, hkey, hck, hfc, hres]
                    rw [hred]
                    refine postLinks_skipLink ?_
                      ((ih _ _ hmeas_rest).2 pk allowed rest rfl hpre_rest)
                    intro c hc
                    have hkc := qualifiesB_key hc
                    rw [hkey] at hkc
                    injection hkc with hkc
                    rcases (qualifiesB_eq_true_iff.mp hc).2.2.2 with ⟨cd1, hcd1, hdisj⟩
                    rw [← hkc, hfc] at hcd1
                    injection hcd1 with hcd1
                    subst hcd1
                    have hres' : ir = false ∧ resolutionSkipped cd.resolution = true := by
                      simpa [Bool.and_eq_true, Bool.not_eq_true'] using hres
                    rcases hdisj with hdisj | hdisj
                    · rw [hres'.1] at hdisj
                      cases hdisj
                    · rw [hres'.2] at hdisj
                      cases hdisj
                  · have hmemrt : rt ∈ allowed := by simpa using hcont
                    have hred : treeGo store wl ir (fuel + 1)
                        (TreeJob.links pk allowed (link :: rest)) s =
                        treeGo store wl ir fuel (TreeJob.links pk allowed rest)
                          (treeGo store wl ir fuel (TreeJob.expand ck)
                            (addEdge (pk, ck) (addNode ck s))) := by
                      simp [treeGo, hrel, hmemrt, hkey, hck, hfc, hres]
                    rw [hred]
                    have hq : qualifiesB store allowed ir link ck = true := by
                      refine qualifiesB_eq_true_iff.mpr
                        ⟨⟨rt, hrel, hcont⟩, hkey, hck, cd, hfc, ?_⟩
                      cases hir : ir with
                      | true => exact Or.inl rfl
                      | false =>
                        refine Or.inr ?_
                        rw [hir] at hres
                        simp only [Bool.not_false, Bool.true_and] at hres
                        simpa using hres
                    have hv2 : (addEdge (pk, ck) (addNode ck s)).visited = s.visited := by
                      rw [addEdge_visited, addNode_visited]
                    have hmeasE : jobMeasure store (TreeJob.expand ck)
                        (addEdge (pk, ck) (addNode ck s)).visited ≤ fuel := by
                      rw [hv2]
                      have := @measure_links_to_expand store pk ck allowed link rest s.visited
                      omega
                    have pe := (ih _ _ hmeasE).1 ck rfl
                    have hmeasR : jobMeasure store (TreeJob.links pk allowed rest)
                        (treeGo store wl ir fuel (TreeJob.expand ck)
                          (addEdge (pk, ck) (addNode ck s))).visited ≤ fuel := by
                      have hsub : ∀ k, k ∈ s.visited →
                          k ∈ (treeGo store wl ir fuel (TreeJob.expand ck)
                            (addEdge (pk, ck) (addNode ck s))).visited := by
                        intro k hk
                        exact pe.vis_mono k (by rw [hv2]; exact hk)
                      have := @measure_links_rest_after store pk allowed link rest _ _ hsub
                      omega
                    have plrest := (ih _ _ hmeasR).2 pk allowed rest rfl hpre_rest
                    exact postLinks_step hq pe plrest
          · have hmemrt : rt ∉ allowed := by simpa using hcont
            have hred : treeGo store wl ir (fuel + 1)
                (TreeJob.links pk allowed (link :: rest)) s =
                treeGo store wl ir fuel (TreeJob.links pk allowed rest) s := by
              simp [treeGo, hrel, hmemrt]
            rw [hred]
            refine postLinks_skipLink ?_ ((ih _ _ hmeas_rest).2 pk allowed rest rfl hpre_rest)
            intro c hc
            rcases (qualifiesB_eq_true_iff.mp hc).1 with ⟨rt1, hrt1, hcont1⟩
            rw [hrel] at hrt1
            injection hrt1 with hrt1
            rw [hrt1] at hcont
            exact hcont hcont1

theorem unexpanded_le_len (store : Store) (v : List String) :
    unexpanded store v ≤ (storeKeys store).length := by
  unfold unexpanded
  exact List.length_filter_le _ _

theorem stdFuel_adequate (store : Store) (s : TreeState) :
    jobMeasure store (TreeJob.expand pk) s.visited ≤ stdFuel store := by
  have h1 := unexpanded_le_len store s.visited
  have h2 : unexpanded store s.visited * (maxLinks store + 2) ≤
      (storeKeys store).length * (maxLinks store + 2) := Nat.mul_le_mul_right _ h1
  simp only [jobMeasure, stdFuel]
  omega

theorem build_issue_tree_spec {store : Store} {wl : Whitelist} {root : String}
    {ir : Bool} {t : TreeState} (h : build_issue_tree store wl root ir = some t) :
    (∀ k, k ∈ t.visited ↔ Reaches store wl ir root k) ∧
    (∀ k, k ∈ t.nodes ↔ Reaches store wl ir root k) ∧
    (∀ e : String × String,
      e ∈ t.edges ↔ Reaches store wl ir root e.1 ∧ Adm store wl ir e.1 e.2) ∧
    t.trace.reverse = t.visited ∧ t.visited.Nodup := by
  unfold build_issue_tree buildIssueTreeFuel at h
  split at h
  · cases h
  · rename_i rootData hf
    split at h
    · cases h
    · split at h
      · cases h
      · injection h with h
        subst h
        have pe := (treeGo_spec store wl ir (stdFuel store) (TreeJob.expand root)
          { nodes := [root], edges := [], visited := [], trace := [] }
          (stdFuel_adequate store _)).1 root rfl
        have hvis : ∀ k,
            k ∈ (treeGo store wl ir (stdFuel store) (TreeJob.expand root)
              { nodes := [root], edges := [], visited := [], trace := [] }).visited ↔
            Reaches store wl ir root k := by
          intro k
          constructor
          · intro hk
            rcases pe.sound k hk with hk1 | hk1
            · cases hk1
            · exact hk1
          · intro hr
            induction hr with
            | refl => exact pe.self_vis
            | tail hr hstep ih => exact pe.closed _ (by simp) ih _ hstep
        refine ⟨hvis, ?_, ?_, ?_, ?_⟩
        · intro k
          rw [pe.nodes_iff k]
          constructor
          · rintro (hk | ⟨q, _, hq, hadm⟩)
            · rcases List.mem_singleton.mp hk with rfl
              exact Relation.ReflTransGen.refl
            · exact Relation.ReflTransGen.tail ((hvis q).mp hq) hadm
          · intro hr
            rcases Relation.ReflTransGen.cases_tail hr with rfl | ⟨c, hrc, hadm⟩
            · exact Or.inl (List.mem_singleton.mpr rfl)
            · exact Or.inr ⟨c, by simp, (hvis c).mpr hrc, hadm⟩
        · intro e
          rw [pe.edges_iff e]
          constructor
          · rintro (he | ⟨_, he2, he3⟩)
            · cases he
            · exact ⟨(hvis e.1).mp he2, he3⟩
          · rintro ⟨hr, hadm⟩
            exact Or.inr ⟨by simp, (hvis e.1).mpr hr, hadm⟩
        · exact pe.trace_align rfl
        · exact pe.vis_nodup List.nodup_nil

theorem treeGo_fuel_irrel (store : Store) (wl : Whitelist) (ir : Bool) :
    ∀ f1 f2 : Nat, ∀ (job : TreeJob) (s : TreeState),
      jobMeasure store job s.visited ≤ f1 → jobMeasure store job s.visited ≤ f2 →
      treeGo store wl ir f1 job s = treeGo store wl ir f2 job s := by
  intro f1
  induction f1 with
  | zero =>
    intro f2 job s h1 h2
    have := jobMeasure_pos store job s.visited
    omega
  | succ f1 ih =>
    intro f2 job s h1 h2
    cases f2 with
    | zero =>
      have := jobMeasure_pos store job s.visited
      omega
    | succ f2 =>
      cases job with
      | expand pk =>
        by_cases hv : pk ∈ s.visited
        · simp [treeGo, hv]
        · cases hf : fetch store pk with
          | none => simp [treeGo, hv, hf]
          | some pd =>
            by_cases he : (wlGet wl pd.issue_type).isEmpty = true
            · simp [treeGo, hv, hf, he]
            · cases hl : pd.issue_links with
              | none => simp [treeGo, hv, hf, he, hl]
              | some fullLs =>
                have hred1 : treeGo store wl ir (f1 + 1) (TreeJob.expand pk) s =
                    treeGo store wl ir f1
                      (TreeJob.links pk (wlGet wl pd.issue_type) fullLs)
                      (markVisited pk s) := by
                  simp [treeGo, hv, hf, he, hl]
                have hred2 : treeGo store wl ir (f2 + 1) (TreeJob.expand pk) s =
                    treeGo store wl ir f2
                      (TreeJob.links pk (wlGet wl pd.issue_type) fullLs)
                      (markVisited pk s) := by
                  simp [treeGo, hv, hf, he, hl]
                rw [hred1, hred2]
                have hstep := @measure_expand_to_links store pk pd fullLs
                  (wlGet wl pd.issue_type) s.visited hf hl hv
                refine ih f2 _ _ ?_ ?_ <;>
                  (rw [markVisited_visited]; simp only [jobMeasure] at h1 h2 hstep ⊢; omega)
      | links pk allowed ls =>
        cases ls with
        | nil => simp [treeGo]
        | cons link rest =>
          have hmr1 : jobMeasure store (TreeJob.links pk allowed rest) s.visited ≤ f1 := by
            have := @measure_links_cons_rest store pk allowed link rest s.visited
            omega
          have hmr2 : jobMeasure store (TreeJob.links pk allowed rest) s.visited ≤ f2 := by
            have := @measure_links_cons_rest store pk allowed link rest s.visited
            omega
          cases hrel : link.relation_type with
          | none =>
            have hred1 : treeGo store wl ir (f1 + 1)
                (TreeJob.links pk allowed (link :: rest)) s =
                treeGo store wl ir f1 (TreeJob.links pk allowed rest) s := by
              simp [treeGo, hrel]
            have hred2 : treeGo store wl ir (f2 + 1)
                (TreeJob.links pk allowed (link :: rest)) s =
                treeGo store wl ir f2 (TreeJob.links pk allowed rest) s := by
              simp [treeGo, hrel]
            rw [hred1, hred2]
            exact ih f2 _ _ hmr1 hmr2
          | some rt =>
            by_cases hcont : rt ∈ allowed
            · cases hkey : link.key with
              | none =>
                have hred1 : treeGo store wl ir (f1 + 1)
                    (TreeJob.links pk allowed (link :: rest)) s =
                    treeGo store wl ir f1 (TreeJob.links pk allowed rest) s := by
                  simp [treeGo, hrel, hkey]
                have hred2 : treeGo store wl ir (f2 + 1)
                    (TreeJob.links pk allowed (link :: rest)) s =
                    treeGo store wl ir f2 (TreeJob.links pk allowed rest) s := by
                  simp [treeGo, hrel, hkey]
                rw [hred1, hred2]
                exact ih f2 _ _ hmr1 hmr2
              | some ck =>
                by_cases hck : ck = ""
                · have hred1 : treeGo store wl ir (f1 + 1)
                      (TreeJob.links pk allowed (link :: rest)) s =
                      treeGo store wl ir f1 (TreeJob.links pk allowed rest) s := by
                    simp [treeGo, hrel, hkey, hck]
                  have hred2 : treeGo store wl ir (f2 + 1)
                      (TreeJob.links pk allowed (link :: rest)) s =
                      treeGo store wl ir f2 (TreeJob.links pk allowed rest) s := by
                    simp [treeGo, hrel, hkey, hck]
                  rw [hred1, hred2]
                  exact ih f2 _ _ hmr1 hmr2
                · cases hfc : fetch store ck with
                  | none =>
                    have hred1 : treeGo store wl ir (f1 + 1)
                        (TreeJob.links pk allowed (link :: rest)) s =
                        treeGo store wl ir f1 (TreeJob.links pk allowed rest) s := by
                      simp [treeGo, hrel, hkey, hck, hfc]
                    have hred2 : treeGo store wl ir (f2 + 1)
                        (TreeJob.links pk allowed (link :: rest)) s =
                        treeGo store wl ir f2 (TreeJob.links pk allowed rest) s := by
                      simp [treeGo, hrel, hkey, hck, hfc]
                    rw [hred1, hred2]
                    exact ih f2 _ _ hmr1 hmr2
                  | some cd =>
                    by_cases hres : (!ir && resolutionSkipped cd.resolution) = true
                    · have hred1 : treeGo store wl ir (f1 + 1)
                          (TreeJob.links pk allowed (link :: rest)) s =
                          treeGo store wl ir f1 (TreeJob.links pk allowed rest) s := by
                        simp [treeGo, hrel, hkey, hck, hfc, hres]
                      have hred2 : treeGo store wl ir (f2 + 1)
                          (TreeJob.links pk allowed (link :: rest)) s =
                          treeGo store wl ir f2 (TreeJob.links pk allowed rest) s := by
                        simp [treeGo, hrel, hkey, hck, hfc, hres]
                      rw [hred1, hred2]
                      exact ih f2 _ _ hmr1 hmr2
                    · have hred1 : treeGo store wl ir (f1 + 1)
                          (TreeJob.links pk allowed (link :: rest)) s =
                          treeGo store wl ir f1 (TreeJob.links pk allowed rest)
                            (treeGo store wl ir f1 (TreeJob.expand ck)
                              (addEdge (pk, ck) (addNode ck s))) := by
                        simp [treeGo, hrel, hcont, hkey, hck, hfc, hres]
                      have hred2 : treeGo store wl ir (f2 + 1)
                          (TreeJob.links pk allowed (link :: rest)) s =
                          treeGo store wl ir f2 (TreeJob.links pk allowed rest)
                            (treeGo store wl ir f2 (TreeJob.expand ck)
                              (addEdge (pk, ck) (addNode ck s))) := by
                        simp [treeGo, hrel, hcont, hkey, hck, hfc, hres]
                      rw [hred1, hred2]
                      have hv2 : (addEdge (pk, ck) (addNode ck s)).visited = s.visited := by
                        rw [addEdge_visited, addNode_visited]
                      have hmE1 : jobMeasure store (TreeJob.expand ck)
                          (addEdge (pk, ck) (addNode ck s)).visited ≤ f1 := by
                        rw [hv2]
                        have := @measure_links_to_expand store pk ck allowed link rest s.visited
                        omega
                      have hmE2 : jobMeasure store (TreeJob.expand ck)
                          (addEdge (pk, ck) (addNode ck s)).visited ≤ f2 := by
                        rw [hv2]
                        have := @measure_links_to_expand store pk ck allowed link rest s.visited
                        omega
                      have hinner := ih f2 (TreeJob.expand ck)
                        (addEdge (pk, ck) (addNode ck s)) hmE1 hmE2
                      rw [hinner]
                      have hsub : ∀ k, k ∈ s.visited →
                          k ∈ (treeGo store wl ir f2 (TreeJob.expand ck)
                            (addEdge (pk, ck) (addNode ck s))).visited := by
                        intro k hk
                        exact treeGo_visited_mono store wl ir f2 _ _ k (by rw [hv2]; exact hk)
                      have hmR := @measure_links_rest_after store pk allowed link rest _ _ hsub
                      refine ih f2 _ _ ?_ ?_ <;> omega
            · have hmemrt : rt ∉ allowed := hcont
              have hred1 : treeGo store wl ir (f1 + 1)
                  (TreeJob.links pk allowed (link :: rest)) s =
                  treeGo store wl ir f1 (TreeJob.links pk allowed rest) s := by
                simp [treeGo, hrel, hmemrt]
              have hred2 : treeGo store wl ir (f2 + 1)
                  (TreeJob.links pk allowed (link :: rest)) s =
                  treeGo store wl ir f2 (TreeJob.links pk allowed rest) s := by
                simp [treeGo, hrel, hmemrt]
              rw [hred1, hred2]
              exact ih f2 _ _ hmr1 hmr2

theorem qualifiesB_iff_eq {store : Store} {allowed : List String} {ir : Bool}
    {link : Link} {ck : String} (hq : qualifiesB store allowed ir link ck = true) :
    ∀ c, qualifiesB store allowed ir link c = true ↔ c = ck := by
  intro c
  constructor
  · intro hc
    have h1 := qualifiesB_key hq
    have h2 := qualifiesB_key hc
    rw [h1] at h2
    injection h2 with h2
    exact h2.symm
  · intro h
    rw [h]
    exact hq

theorem mem_ite_append {α : Type} {c : Prop} [Decidable c] (l : List α) (x k : α)
    (hc : c → x ∈ l) : (k ∈ if c then l else l ++ [x]) ↔ k ∈ l ∨ k = x := by
  split
  · rename_i h
    constructor
    · exact fun hk => Or.inl hk
    · rintro (hk | rfl)
      · exact hk
      · exact hc h
  · constructor
    · intro hk
      rcases List.mem_append.mp hk with hk | hk
      · exact Or.inl hk
      · exact Or.inr (List.mem_singleton.mp hk)
    · rintro (hk | rfl)
      · exact List.mem_append.mpr (Or.inl hk)
      · exact List.mem_append.mpr (Or.inr (List.mem_singleton.mpr rfl))

theorem wLinkStep_spec (store : Store) (ir : Bool) (cur : String) (allowed : List String)
    (link : Link) (w : WState) :
    (wLinkStep store ir cur allowed link w).expanded = w.expanded ∧
    (∀ k, k ∈ (wLinkStep store ir cur allowed link w).seen ↔
      k ∈ w.seen ∨ qualifiesB store allowed ir link k = true) ∧
    (∀ k, k ∈ (wLinkStep store ir cur allowed link w).worklist ↔
      k ∈ w.worklist ∨ (qualifiesB store allowed ir link k = true ∧ k ∉ w.seen)) ∧
    (∀ k, k ∈ (wLinkStep store ir cur allowed link w).nodes ↔
      k ∈ w.nodes ∨ qualifiesB store allowed ir link k = true) ∧
    (∀ e : String × String, e ∈ (wLinkStep store ir cur allowed link w).edges ↔
      e ∈ w.edges ∨ (e.1 = cur ∧ qualifiesB store allowed ir link e.2 = true)) ∧
    (wLinkStep store ir cur allowed link w).worklist.length ≤ w.worklist.length + 1 := by
  cases hrel : link.relation_type with
  | none =>
    have hlf : ∀ c, ¬ qualifiesB store allowed ir link c = true := by
      intro c hc
      rcases (qualifiesB_eq_true_iff.mp hc).1 with ⟨rt, hrt, _⟩
      rw [hrel] at hrt
      cases hrt
    have hstep : wLinkStep store ir cur allowed link w = w := by
      simp [wLinkStep, hrel]
    rw [hstep]
    exact ⟨rfl, fun k => by simp [hlf k], fun k => by simp [hlf k],
      fun k => by simp [hlf k], fun e => by simp [hlf e.2], by omega⟩
  | some rt =>
    by_cases hcont : rt ∈ allowed
    · cases hkey : link.key with
      | none =>
        have hlf : ∀ c, ¬ qualifiesB store allowed ir link c = true := by
          intro c hc
          have := qualifiesB_key hc
          rw [hkey] at this
          cases this
        have hstep : wLinkStep store ir cur allowed link w = w := by
          simp [wLinkStep, hrel, hkey]
        rw [hstep]
        exact ⟨rfl, fun k => by simp [hlf k], fun k => by simp [hlf k],
          fun k => by simp [hlf k], fun e => by simp [hlf e.2], by omega⟩
      | some ck =>
        by_cases hck : ck = ""
        · have hlf : ∀ c, ¬ qualifiesB store allowed ir link c = true := by
            intro c hc
            have hkc := qualifiesB_key hc
            rw [hkey] at hkc
            injection hkc with hkc
            have := (qualifiesB_eq_true_iff.mp hc).2.2.1
            rw [hkc] at hck
            exact this hck
          have hstep : wLinkStep store ir cur allowed link w = w := by
            simp [wLinkStep, hrel, hkey, hck]
          rw [hstep]
          exact ⟨rfl, fun k => by simp [hlf k], fun k => by simp [hlf k],
            fun k => by simp [hlf k], fun e => by simp [hlf e.2], by omega⟩
        · cases hfc : fetch store ck with
          | none =>
            have hlf : ∀ c, ¬ qualifiesB store allowed ir link c = true := by
              intro c hc
              have hkc := qualifiesB_key hc
              rw [hkey] at hkc
              injection hkc with hkc
              rcases (qualifiesB_eq_true_iff.mp hc).2.2.2 with ⟨cd, hcd, _⟩
              rw [← hkc, hfc] at hcd
              cases hcd
            have hstep : wLinkStep store ir cur allowed link w = w := by
              simp [wLinkStep, hrel, hkey, hck, hfc]
            rw [hstep]
            exact ⟨rfl, fun k => by simp [hlf k], fun k => by simp [hlf k],
              fun k => by simp [hlf k], fun e => by simp [hlf e.2], by omega⟩
          | some cd =>
            by_cases hres : (!ir && resolutionSkipped cd.resolution) = true
            · have hlf : ∀ c, ¬ qualifiesB store allowed ir link c = true := by
                intro c hc
                have hkc := qualifiesB_key hc
                rw [hkey] at hkc
                injection hkc with hkc
                rcases (qualifiesB_eq_true_iff.mp hc).2.2.2 with ⟨cd1, hcd1, hdisj⟩
                rw [← hkc, hfc] at hcd1
                injection hcd1 with hcd1
                subst hcd1
                have hres' : ir = false ∧ resolutionSkipped cd.resolution = true := by
                  simpa [Bool.and_eq_true, Bool.not_eq_true'] using hres
                rcases hdisj with hdisj | hdisj
                · rw [hres'.1] at hdisj
                  cases hdisj
                · rw [hres'.2] at hdisj
                  cases hdisj
              have hstep : wLinkStep store ir cur allowed link w = w := by
                simp [wLinkStep, hrel, hkey, hck, hfc, hres]
              rw [hstep]
              exact ⟨rfl, fun k => by simp [hlf k], fun k => by simp [hlf k],
                fun k => by simp [hlf k], fun e => by simp [hlf e.2], by omega⟩
            · have hq : qualifiesB store allowed ir link ck = true := by
                refine qualifiesB_eq_true_iff.mpr
                  ⟨⟨rt, hrel, by simpa using hcont⟩, hkey, hck, cd, hfc, ?_⟩
                cases hir : ir with
                | true => exact Or.inl rfl
                | false =>
                  refine Or.inr ?_
                  rw [hir] at hres
                  simp only [Bool.not_false, Bool.true_and] at hres
                  simpa using hres
              have hqiff := qualifiesB_iff_eq hq
              by_cases hseen : ck ∈ w.seen
              · have hstep : wLinkStep store ir cur allowed link w =
                    { w with
                      nodes := if ck ∈ w.nodes then w.nodes else w.nodes ++ [ck],
                      edges := if (cur, ck) ∈ w.edges then w.edges
                               else w.edges ++ [(cur, ck)] } := by
                  simp [wLinkStep, hrel, hcont, hkey, hck, hfc, hres, hseen]
                rw [hstep]
                refine ⟨rfl, ?_, ?_, ?_, ?_, Nat.le_add_right _ _⟩
                · intro k
                  simp only [hqiff k]
                  constructor
                  · exact fun h => Or.inl h
                  · rintro (h | rfl)
                    · exact h
                    · exact hseen
                · intro k
                  simp only [hqiff k]
                  constructor
                  · exact fun h => Or.inl h
                  · rintro (h | ⟨rfl, hns⟩)
                    · exact h
                    · exact absurd hseen hns
                · intro k
                  simp only [hqiff k]
                  exact mem_ite_append w.nodes ck k (fun h => h)
                · intro e
                  simp only [hqiff e.2]
                  constructor
                  · intro h
                    rcases (mem_ite_append w.edges (cur, ck) e (fun h => h)).mp h with h | h
                    · exact Or.inl h
                    · exact Or.inr ⟨by rw [h], by rw [h]⟩
                  · rintro (h | ⟨h1, h2⟩)
                    · exact (mem_ite_append w.edges (cur, ck) e (fun h => h)).mpr (Or.inl h)
                    · refine (mem_ite_append w.edges (cur, ck) e (fun h => h)).mpr (Or.inr ?_)
                      have he : e = (e.1, e.2) := rfl
                      rw [he, h1, h2]
              · have hstep : wLinkStep store ir cur allowed link w =
                    { w with
                      nodes := if ck ∈ w.nodes then w.nodes else w.nodes ++ [ck],
                      edges := if (cur, ck) ∈ w.edges then w.edges
                               else w.edges ++ [(cur, ck)],
                      seen := w.seen ++ [ck],
                      worklist := w.worklist ++ [ck] } := by
                  simp [wLinkStep, hrel, hcont, hkey, hck, hfc, hres, hseen]
                rw [hstep]
                refine ⟨rfl, ?_, ?_, ?_, ?_, by simp⟩
                · intro k
                  simp only [hqiff k, List.mem_append, List.mem_singleton]
                · intro k
                  simp only [hqiff k, List.mem_append, List.mem_singleton]
                  constructor
                  · rintro (h | rfl)
                    · exact Or.inl h
                    · exact Or.inr ⟨rfl, hseen⟩
                  · rintro (h | ⟨rfl, _⟩)
                    · exact Or.inl h
                    · exact Or.inr rfl
                · intro k
                  simp only [hqiff k]
                  exact mem_ite_append w.nodes ck k (fun h => h)
                · intro e
                  simp only [hqiff e.2]
                  constructor
                  · intro h
                    rcases (mem_ite_append w.edges (cur, ck) e (fun h => h)).mp h with h | h
                    · exact Or.inl h
                    · exact Or.inr ⟨by rw [h], by rw [h]⟩
                  · rintro (h | ⟨h1, h2⟩)
                    · exact (mem_ite_append w.edges (cur, ck) e (fun h => h)).mpr (Or.inl h)
                    · refine (mem_ite_append w.edges (cur, ck) e (fun h => h)).mpr (Or.inr ?_)
                      have he : e = (e.1, e.2) := rfl
                      rw [he, h1, h2]
    · have hlf : ∀ c, ¬ qualifiesB store allowed ir link c = true := by
        intro c hc
        rcases (qualifiesB_eq_true_iff.mp hc).1 with ⟨rt1, hrt1, hcont1⟩
        rw [hrel] at hrt1
        injection hrt1 with hrt1
        rw [hrt1] at hcont
        exact hcont (by simpa using hcont1)
      have hstep : wLinkStep store ir cur allowed link w = w := by
        simp [wLinkStep, hrel, hcont]
      rw [hstep]
      exact ⟨rfl, fun k => by simp [hlf k], fun k => by simp [hlf k],
        fun k => by simp [hlf k], fun e => by simp [hlf e.2], by omega⟩

theorem wLinks_spec (store : Store) (ir : Bool) (cur : String) (allowed : List String) :
    ∀ (ls : List Link) (w : WState),
      (wLinks store ir cur allowed ls w).expanded = w.expanded ∧
      (∀ k, k ∈ (wLinks store ir cur allowed ls w).seen ↔
        k ∈ w.seen ∨ QualAny store allowed ir ls k) ∧
      (∀ k, k ∈ (wLinks store ir cur allowed ls w).worklist ↔
        k ∈ w.worklist ∨ (k ∉ w.seen ∧ QualAny store allowed ir ls k)) ∧
      (∀ k, k ∈ (wLinks store ir cur allowed ls w).nodes ↔
        k ∈ w.nodes ∨ QualAny store allowed ir ls k) ∧
      (∀ e : String × String, e ∈ (wLinks store ir cur allowed ls w).edges ↔
        e ∈ w.edges ∨ (e.1 = cur ∧ QualAny store allowed ir ls e.2)) ∧
      (wLinks store ir cur allowed ls w).worklist.length ≤
        w.worklist.length + ls.length := by
  intro ls
  induction ls with
  | nil =>
    intro w
    refine ⟨rfl, fun k => ?_, fun k => ?_, fun k => ?_, fun e => ?_, by simp [wLinks]⟩
    all_goals simp [wLinks, QualAny]
  | cons link rest ih =>
    intro w
    obtain ⟨hexp, hseen, hwl, hnodes, hedges, hlen⟩ :=
      wLinkStep_spec store ir cur allowed link w
    obtain ⟨ihexp, ihseen, ihwl, ihnodes, ihedges, ihlen⟩ :=
      ih (wLinkStep store ir cur allowed link w)
    have hunf : wLinks store ir cur allowed (link :: rest) w =
        wLinks store ir cur allowed rest (wLinkStep store ir cur allowed link w) := rfl
    rw [hunf]
    refine ⟨?_, ?_, ?_, ?_, ?_, ?_⟩
    · rw [ihexp, hexp]
    · intro k
      rw [ihseen k, hseen k, qualAny_cons]
      tauto
    · intro k
      rw [ihwl k, hwl k, qualAny_cons]
      have hns := hseen k
      tauto
    · intro k
      rw [ihnodes k, hnodes k, qualAny_cons]
      tauto
    · intro e
      rw [ihedges e, hedges e, qualAny_cons]
      tauto
    · simp only [List.length_cons]
      omega

theorem adm_getD_iff {store : Store} {wl : Whitelist} {ir : Bool} {cur c : String}
    {pd : IssueData} (hf : fetch store cur = some pd) :
    Adm store wl ir cur c ↔
      QualAny store (wlGet wl pd.issue_type) ir (pd.issue_links.getD []) c := by
  cases hl : pd.issue_links with
  | none =>
    simp only [hl, Option.getD_none]
    constructor
    · intro h
      exact absurd h (adm_false_of_links_none hf hl)
    · intro h
      rcases h with ⟨link, hmem, _⟩
      cases hmem
  | some fullLs =>
    simp only [hl, Option.getD_some]
    exact adm_iff hf hl

theorem getD_links_length_le {store : Store} {cur : String} {pd : IssueData}
    (hf : fetch store cur = some pd) :
    (pd.issue_links.getD []).length ≤ maxLinks store := by
  cases hl : pd.issue_links with
  | none => simp [hl]
  | some fullLs =>
    simp only [hl, Option.getD_some]
    exact links_length_le_maxLinks hf hl

theorem worklistGo_spec (store : Store) (wl : Whitelist) (ir : Bool) (root : String)
    (sel : Selector) (hval : SelValid sel) (hprog : SelProgress sel) :
    ∀ (fuel : Nat) (w : WState), wMeasure store w ≤ fuel → WInv store wl ir root w →
      WInv store wl ir root (worklistGo store wl ir sel fuel w) ∧
      (worklistGo store wl ir sel fuel w).worklist = [] := by
  intro fuel
  induction fuel with
  | zero =>
    intro w h _
    unfold wMeasure at h
    omega
  | succ fuel ih =>
    intro w h hinv
    cases hsel : sel w.worklist with
    | none =>
      have hred : worklistGo store wl ir sel (fuel + 1) w = w := by
        simp [worklistGo, hsel]
      rw [hred]
      refine ⟨hinv, ?_⟩
      by_contra hne
      have hs := hprog w.worklist hne
      rw [hsel] at hs
      simp at hs
    | some p =>
      obtain ⟨cur, rest⟩ := p
      have hperm : (cur :: rest).Perm w.worklist := hval w.worklist cur rest hsel
      have hcur : cur ∈ w.worklist := hperm.subset (List.mem_cons_self _ _)
      have hrest : ∀ k, k ∈ rest → k ∈ w.worklist :=
        fun k hk => hperm.subset (List.mem_cons_of_mem _ hk)
      have hlen : rest.length + 1 = w.worklist.length := by
        simpa using hperm.length_eq
      have hwlmem : ∀ k, k ∈ w.worklist → k = cur ∨ k ∈ rest :=
        fun k hk => List.mem_cons.mp (hperm.mem_iff.mpr hk)
      by_cases hexp : cur ∈ w.expanded
      · have hred : worklistGo store wl ir sel (fuel + 1) w =
            worklistGo store wl ir sel fuel { w with worklist := rest } := by
          simp [worklistGo, hsel, hexp]
        rw [hred]
        apply ih
        · unfold wMeasure at h ⊢
          simp only at h ⊢
          omega
        · refine ⟨?_, ?_, hinv.exp_seen, hinv.root_seen, hinv.sound, hinv.closed,
            hinv.edges_iff, hinv.nodes_iff, hinv.fetchable⟩
          · exact fun k hk => hinv.wl_seen k (hrest k hk)
          · intro k hk
            rcases hinv.seen_cases k hk with hk1 | hk1
            · exact Or.inl hk1
            · rcases hwlmem k hk1 with rfl | hk2
              · exact Or.inl hexp
              · exact Or.inr hk2
      · cases hfetch : fetch store cur with
        | none =>
          exfalso
          have hs := hinv.fetchable cur (hinv.wl_seen cur hcur)
          rw [hfetch] at hs
          simp at hs
        | some pd =>
          have hred : worklistGo store wl ir sel (fuel + 1) w =
              worklistGo store wl ir sel fuel
                (wLinks store ir cur (wlGet wl pd.issue_type) (pd.issue_links.getD [])
                  { w with worklist := rest, expanded := w.expanded ++ [cur] }) := by
            simp [worklistGo, hsel, hexp, hfetch]
          rw [hred]
          obtain ⟨hexp2, hseen2, hwl2, hnodes2, hedges2, hlen2⟩ :=
            wLinks_spec store ir cur (wlGet wl pd.issue_type) (pd.issue_links.getD [])
              { w with worklist := rest, expanded := w.expanded ++ [cur] }
          simp only at hexp2 hseen2 hwl2 hnodes2 hedges2 hlen2
          have hadm : ∀ c, Adm store wl ir cur c ↔
              QualAny store (wlGet wl pd.issue_type) ir (pd.issue_links.getD []) c :=
            fun c => adm_getD_iff hfetch
          have hexpu : ∀ k,
              k ∈ (wLinks store ir cur (wlGet wl pd.issue_type) (pd.issue_links.getD [])
                { w with worklist := rest, expanded := w.expanded ++ [cur] }).expanded ↔
              k ∈ w.expanded ∨ k = cur := by
            intro k
            rw [hexp2]
            simp
          have hcurseen : cur ∈ w.seen := hinv.wl_seen cur hcur
          apply ih
          · have hE : ((storeKeys store).filter
                (fun k => decide (k ∉ w.expanded ++ [cur]))).length + 1 ≤
                ((storeKeys store).filter (fun k => decide (k ∉ w.expanded))).length := by
              refine filter_length_lt _ ?_ cur (fetch_mem_storeKeys hfetch) ?_ ?_
              · intro a ha
                simp only [decide_eq_true_eq, List.mem_append] at *
                exact fun hav => ha (Or.inl hav)
              · simpa using hexp
              · simp
            have hLs : (pd.issue_links.getD []).length ≤ maxLinks store :=
              getD_links_length_le hfetch
            have hmul : (((storeKeys store).filter
                (fun k => decide (k ∉ w.expanded ++ [cur]))).length + 1)
                  * (maxLinks store + 2) ≤
                ((storeKeys store).filter (fun k => decide (k ∉ w.expanded))).length
                  * (maxLinks store + 2) := Nat.mul_le_mul_right _ hE
            rw [Nat.add_mul, Nat.one_mul] at hmul
            unfold wMeasure at h ⊢
            simp only [hexp2]
            omega
          · refine ⟨?_, ?_, ?_, ?_, ?_, ?_, ?_, ?_, ?_⟩
            · intro k hk
              rcases (hwl2 k).mp hk with hk1 | ⟨_, hk2⟩
              · exact (hseen2 k).mpr (Or.inl (hinv.wl_seen k (hrest k hk1)))
              · exact (hseen2 k).mpr (Or.inr hk2)
            · intro k hk
              rcases (hseen2 k).mp hk with hk1 | hk1
              · rcases hinv.seen_cases k hk1 with hk2 | hk2
                · exact Or.inl ((hexpu k).mpr (Or.inl hk2))
                · rcases hwlmem k hk2 with rfl | hk3
                  · exact Or.inl ((hexpu k).mpr (Or.inr rfl))
                  · exact Or.inr ((hwl2 k).mpr (Or.inl hk3))
              · by_cases hks : k ∈ w.seen
                · rcases hinv.seen_cases k hks with hk2 | hk2
                  · exact Or.inl ((hexpu k).mpr (Or.inl hk2))
                  · rcases hwlmem k hk2 with rfl | hk3
                    · exact Or.inl ((hexpu k).mpr (Or.inr rfl))
                    · exact Or.inr ((hwl2 k).mpr (Or.inl hk3))
                · exact Or.inr ((hwl2 k).mpr (Or.inr ⟨hks, hk1⟩))
            · intro k hk
              rcases (hexpu k).mp hk with hk1 | rfl
              · exact (hseen2 k).mpr (Or.inl (hinv.exp_seen k hk1))
              · exact (hseen2 k).mpr (Or.inl hcurseen)
            · exact (hseen2 root).mpr (Or.inl hinv.root_seen)
            · intro k hk
              rcases (hseen2 k).mp hk with hk1 | hk1
              · exact hinv.sound k hk1
              · exact Relation.ReflTransGen.tail (hinv.sound cur hcurseen)
                  ((hadm k).mpr hk1)
            · intro q hq c hc
              rcases (hexpu q).mp hq with hq1 | rfl
              · exact (hseen2 c).mpr (Or.inl (hinv.closed q hq1 c hc))
              · exact (hseen2 c).mpr (Or.inr ((hadm c).mp hc))
            · intro e
              rw [hedges2 e]
              constructor
              · rintro (he | ⟨h1, h2⟩)
                · obtain ⟨hm, ha⟩ := (hinv.edges_iff e).mp he
                  exact ⟨(hexpu e.1).mpr (Or.inl hm), ha⟩
                · refine ⟨(hexpu e.1).mpr (Or.inr h1), ?_⟩
                  rw [h1]
                  exact (hadm e.2).mpr h2
              · rintro ⟨hm, ha⟩
                rcases (hexpu e.1).mp hm with hm1 | hm1
                · exact Or.inl ((hinv.edges_iff e).mpr ⟨hm1, ha⟩)
                · refine Or.inr ⟨hm1, ?_⟩
                  rw [hm1] at ha
                  exact (hadm e.2).mp ha
            · intro k
              rw [hnodes2 k]
              constructor
              · rintro (hk | hk)
                · rcases (hinv.nodes_iff k).mp hk with hk1 | ⟨q, hq1, hq2⟩
                  · exact Or.inl hk1
                  · exact Or.inr ⟨q, (hexpu q).mpr (Or.inl hq1), hq2⟩
                · exact Or.inr ⟨cur, (hexpu cur).mpr (Or.inr rfl), (hadm k).mpr hk⟩
              · rintro (hk | ⟨q, hq1, hq2⟩)
                · exact Or.inl ((hinv.nodes_iff k).mpr (Or.inl hk))
                · rcases (hexpu q).mp hq1 with hq3 | rfl
                  · exact Or.inl ((hinv.nodes_iff k).mpr (Or.inr ⟨q, hq3, hq2⟩))
                  · exact Or.inr ((hadm k).mp hq2)
            · intro k hk
              rcases (hseen2 k).mp hk with hk1 | hk1
              · exact hinv.fetchable k hk1
              · rcases hk1 with ⟨link, _, hq⟩
                rcases (qualifiesB_eq_true_iff.mp hq).2.2.2 with ⟨cd, hcd, _⟩
                rw [hcd]
                rfl

theorem worklistBuild_spec {store : Store} {wl : Whitelist} {root : String} {ir : Bool}
    {sel : Selector} {u : WState} (hval : SelValid sel) (hprog : SelProgress sel)
    (h : worklistBuild store wl root ir sel = some u) :
    (∀ k, k ∈ u.nodes ↔ Reaches store wl ir root k) ∧
    (∀ e : String × String,
      e ∈ u.edges ↔ Reaches store wl ir root e.1 ∧ Adm store wl ir e.1 e.2) := by
  unfold worklistBuild at h
  split at h
  · cases h
  · rename_i rootData hf
    split at h
    · cases h
    · split at h
      · cases h
      · injection h with h
        subst h
        have hinv0 : WInv store wl ir root
            { nodes := [root], edges := [], seen := [root], expanded := [],
              worklist := [root] } := by
          refine ⟨?_, ?_, ?_, ?_, ?_, ?_, ?_, ?_, ?_⟩
          · exact fun k hk => hk
          · exact fun k hk => Or.inr hk
          · intro k hk
            cases hk
          · exact List.mem_singleton.mpr rfl
          · intro k hk
            rcases List.mem_singleton.mp hk with rfl
            exact Relation.ReflTransGen.refl
          · intro q hq
            cases hq
          · intro e
            constructor
            · intro he
              cases he
            · rintro ⟨he, _⟩
              cases he
          · intro k
            constructor
            · intro hk
              exact Or.inl (List.mem_singleton.mp hk)
            · rintro (rfl | ⟨q, hq, _⟩)
              · exact List.mem_singleton.mpr rfl
              · cases hq
          · intro k hk
            rcases List.mem_singleton.mp hk with rfl
            rw [hf]
            rfl
        have hmeas0 : wMeasure store
            { nodes := [root], edges := [], seen := [root], expanded := [],
              worklist := [root] } ≤ wlFuel store := by
          have h1 : (((storeKeys store).filter
              (fun k => decide (k ∉ ([] : List String)))).length) ≤
              (storeKeys store).length := List.length_filter_le _ _
          have h2 : ((storeKeys store).filter
              (fun k => decide (k ∉ ([] : List String)))).length
                * (maxLinks store + 2) ≤
              (storeKeys store).length * (maxLinks store + 2) :=
            Nat.mul_le_mul_right _ h1
          unfold wMeasure wlFuel
          simp only [List.length_singleton]
          omega
        obtain ⟨hu, hempty⟩ := worklistGo_spec store wl ir root sel hval hprog
          (wlFuel store) _ hmeas0 hinv0
        have hseenexp : ∀ k,
            k ∈ (worklistGo store wl ir sel (wlFuel store)
              { nodes := [root], edges := [], seen := [root], expanded := [],
                worklist := [root] }).seen ↔
            k ∈ (worklistGo store wl ir sel (wlFuel store)
              { nodes := [root], edges := [], seen := [root], expanded := [],
                worklist := [root] }).expanded := by
          intro k
          constructor
          · intro hk
            rcases hu.seen_cases k hk with hk1 | hk1
            · exact hk1
            · rw [hempty] at hk1
              cases hk1
          · exact hu.exp_seen k
        have hreach : ∀ k,
            k ∈ (worklistGo store wl ir sel (wlFuel store)
              { nodes := [root], edges := [], seen := [root], expanded := [],
                worklist := [root] }).seen ↔ Reaches store wl ir root k := by
          intro k
          constructor
          · exact hu.sound k
          · intro hr
            induction hr with
            | refl => exact hu.root_seen
            | tail hr hstep ihr =>
              exact hu.closed _ ((hseenexp _).mp ihr) _ hstep
        constructor
        · intro k
          rw [hu.nodes_iff k]
          constructor
          · rintro (rfl | ⟨q, hq, hadm⟩)
            · exact Relation.ReflTransGen.refl
            · exact Relation.ReflTransGen.tail
                ((hreach q).mp (hu.exp_seen q hq)) hadm
          · intro hr
            rcases Relation.ReflTransGen.cases_tail hr with rfl | ⟨c, hrc, hadm⟩
            · exact Or.inl rfl
            · exact Or.inr ⟨c, (hseenexp c).mp ((hreach c).mpr hrc), hadm⟩
        · intro e
          rw [hu.edges_iff e]
          constructor
          · rintro ⟨hm, hadm⟩
            exact ⟨(hreach e.1).mp (hu.exp_seen e.1 hm), hadm⟩
          · rintro ⟨hr, hadm⟩
            exact ⟨(hseenexp e.1).mp ((hreach e.1).mpr hr), hadm⟩

/-- Claim C1: for a fixed issue store and whitelist, the node and edge
sets of the graph produced by build_issue_tree are uniquely determined
by the root key and those inputs: the specification's worklist
traversal run with any two pop disciplines (depth-first stack,
breadth-first queue, or any other selector) produces exactly the node
and edge sets of build_issue_tree, so any two traversal orders agree
with each other and with the implementation. -/
theorem C1_tree_builder_order_independence
    (store : Store) (wl : Whitelist) (root : String) (ir : Bool) (t : TreeState)
    (sel1 sel2 : Selector) (hval1 : SelValid sel1) (hprog1 : SelProgress sel1)
    (hval2 : SelValid sel2) (hprog2 : SelProgress sel2)
    (hb : build_issue_tree store wl root ir = some t) :
    ∃ u1 u2 : WState,
      worklistBuild store wl root ir sel1 = some u1 ∧
      worklistBuild store wl root ir sel2 = some u2 ∧
      (∀ k, k ∈ u1.nodes ↔ k ∈ u2.nodes) ∧
      (∀ e : String × String, e ∈ u1.edges ↔ e ∈ u2.edges) ∧
      (∀ k, k ∈ u1.nodes ↔ k ∈ t.nodes) ∧
      (∀ e : String × String, e ∈ u1.edges ↔ e ∈ t.edges) := by
  obtain ⟨_, hnodes, hedges, _, _⟩ := build_issue_tree_spec hb
  have hb1 : build_issue_tree store wl root ir = some t := hb
  unfold build_issue_tree buildIssueTreeFuel at hb1
  split at hb1
  · cases hb1
  · rename_i rootData hf
    split at hb1
    · cases hb1
    · rename_i hwk
      split at hb1
      · cases hb1
      · rename_i hres
        have hw1 : worklistBuild store wl root ir sel1 =
            some (worklistGo store wl ir sel1 (wlFuel store)
              { nodes := [root], edges := [], seen := [root], expanded := [],
                worklist := [root] }) := by
          simp [worklistBuild, hf, hwk, hres]
        have hw2 : worklistBuild store wl root ir sel2 =
            some (worklistGo store wl ir sel2 (wlFuel store)
              { nodes := [root], edges := [], seen := [root], expanded := [],
                worklist := [root] }) := by
          simp [worklistBuild, hf, hwk, hres]
        obtain ⟨hn1, he1⟩ := worklistBuild_spec hval1 hprog1 hw1
        obtain ⟨hn2, he2⟩ := worklistBuild_spec hval2 hprog2 hw2
        refine ⟨_, _, hw1, hw2, ?_, ?_, ?_, ?_⟩
        · intro k
          rw [hn1 k, hn2 k]
        · intro e
          rw [he1 e, he2 e]
        · intro k
          rw [hn1 k, hnodes k]
        · intro e
          rw [he1 e, hedges e]

theorem queueSel_valid : SelValid queueSel := by
  intro l x rest h
  cases l with
  | nil => cases h
  | cons y ys =>
    unfold queueSel at h
    injection h with h
    have hx : y = x := congrArg Prod.fst h
    have hr : ys = rest := congrArg Prod.snd h
    subst hx
    subst hr
    exact List.Perm.refl _

theorem queueSel_progress : SelProgress queueSel := by
  intro l h
  cases l with
  | nil => exact absurd rfl h
  | cons y ys => rfl

theorem stackSel_valid : SelValid stackSel := by
  intro l x rest h
  cases l with
  | nil => cases h
  | cons y ys =>
    unfold stackSel at h
    injection h with h
    have hne : y :: ys ≠ [] := by simp
    have hx : (y :: ys).getLast hne = x := congrArg Prod.fst h
    have hr : (y :: ys).dropLast = rest := congrArg Prod.snd h
    subst hx
    subst hr
    have hd : (y :: ys).dropLast ++ [(y :: ys).getLast hne] = y :: ys :=
      List.dropLast_append_getLast hne
    have hp := List.perm_append_singleton ((y :: ys).getLast hne) ((y :: ys).dropLast)
    rw [hd] at hp
    exact hp.symm

theorem stackSel_progress : SelProgress stackSel := by
  intro l h
  cases l with
  | nil => exact absurd rfl h
  | cons y ys => rfl

theorem adm_elim {store : Store} {wl : Whitelist} {ir : Bool} {p c : String}
    (h : Adm store wl ir p c) :
    ∃ pd fullLs, fetch store p = some pd ∧ pd.issue_links = some fullLs ∧
      QualAny store (wlGet wl pd.issue_type) ir fullLs c := by
  cases hf : fetch store p with
  | none => exact absurd h (adm_false_of_fetch_none hf)
  | some pd =>
    cases hl : pd.issue_links with
    | none => exact absurd h (adm_false_of_links_none hf hl)
    | some fullLs =>
      exact ⟨pd, fullLs, rfl, hl, (adm_iff hf hl).mp h⟩

/-- Claim C2: build_issue_tree terminates on every input, including
cyclic relation graphs: giving the traversal any amount of extra fuel
beyond the standard bound changes nothing, meaning the recursion
completes within the bound; and during one traversal each node is
expanded at most once: the chronological expansion trace has no
duplicates, and it contains exactly the visited keys. -/
theorem C2_termination_visited_once
    (store : Store) (wl : Whitelist) (root : String) (ir : Bool) (t : TreeState)
    (extra : Nat) (hb : build_issue_tree store wl root ir = some t) :
    buildIssueTreeFuel store wl root ir (stdFuel store + extra) = some t ∧
    t.trace.Nodup ∧ (∀ k, k ∈ t.trace ↔ k ∈ t.visited) := by
  obtain ⟨_, _, _, htrace, hnodup⟩ := build_issue_tree_spec hb
  refine ⟨?_, ?_, ?_⟩
  · have hfi : buildIssueTreeFuel store wl root ir (stdFuel store + extra) =
        buildIssueTreeFuel store wl root ir (stdFuel store) := by
      unfold buildIssueTreeFuel
      cases hf : fetch store root with
      | none => rfl
      | some rootData =>
        by_cases hwk : (!wlHasKey wl rootData.issue_type) = true
        · simp [hwk]
        · by_cases hres : (!ir && resolutionSkipped rootData.resolution) = true
          · simp [hwk, hres]
          · simp only [hwk, hres, if_false]
            exact congrArg some (treeGo_fuel_irrel store wl ir (stdFuel store + extra)
              (stdFuel store) (TreeJob.expand root)
              { nodes := [root], edges := [], visited := [], trace := [] }
              (Nat.le_trans (stdFuel_adequate store _) (Nat.le_add_right _ _))
              (stdFuel_adequate store _))
    rw [hfi]
    exact hb
  · have ht : t.trace = t.visited.reverse := by
      rw [← htrace, List.reverse_reverse]
    rw [ht]
    exact List.nodup_reverse.mpr hnodup
  · intro k
    rw [← htrace, List.mem_reverse]

/-- Claim C3: every edge of the graph returned by build_issue_tree was
followed through a link whose relation type is in the whitelist entry
of the parent's issue type; an edge with a relation type outside the
parent's allowed set never appears, whatever the target record. -/
theorem C3_whitelist_enforcement
    (store : Store) (wl : Whitelist) (root : String) (ir : Bool) (t : TreeState)
    (hb : build_issue_tree store wl root ir = some t) :
    ∀ p c : String, (p, c) ∈ t.edges →
      ∃ pd ls link rt, fetch store p = some pd ∧ pd.issue_links = some ls ∧
        link ∈ ls ∧ link.relation_type = some rt ∧ rt ∈ wlGet wl pd.issue_type ∧
        link.key = some c := by
  intro p c he
  obtain ⟨_, _, hedges, _, _⟩ := build_issue_tree_spec hb
  have hadm : Adm store wl ir p c := ((hedges (p, c)).mp he).2
  obtain ⟨pd, fullLs, hf, hl, link, hmem, hq⟩ := adm_elim hadm
  obtain ⟨⟨rt, hrt, hcont⟩, hkey, _, _⟩ := qualifiesB_eq_true_iff.mp hq
  exact ⟨pd, fullLs, link, rt, hf, hl, hmem, hrt, by simpa using hcont, hkey⟩

/-- Claim C4: with include_rejected false, no node of the returned
graph has resolution Rejected or Withdrawn (a rejected child is not
added, so neither is the edge to it), and a key is a node exactly when
it is reachable from the root through admissible edges, all of which
point at non-excluded records: whatever is reachable only through a
rejected child is absent, and a descendant appears exactly when some
other non-excluded path reaches it. -/
theorem C4_resolution_exclusion
    (store : Store) (wl : Whitelist) (root : String) (t : TreeState)
    (hb : build_issue_tree store wl root false = some t) :
    (∀ k, k ∈ t.nodes → ∀ cd, fetch store k = some cd →
      resolutionSkipped cd.resolution = false) ∧
    (∀ k, k ∈ t.nodes ↔ Reaches store wl false root k) := by
  obtain ⟨_, hnodes, _, _, _⟩ := build_issue_tree_spec hb
  refine ⟨?_, hnodes⟩
  intro k hk cd hcd
  have hr := (hnodes k).mp hk
  rcases Relation.ReflTransGen.cases_tail hr with rfl | ⟨q, _, hadm⟩
  · unfold build_issue_tree buildIssueTreeFuel at hb
    split at hb
    · cases hb
    · rename_i rootData hf
      split at hb
      · cases hb
      · split at hb
        · cases hb
        · rename_i hres
          rw [hcd] at hf
          injection hf with hf
          rw [← hf] at hres
          simpa using hres
  · obtain ⟨pd, fullLs, hf, hl, link, hmem, hq⟩ := adm_elim hadm
    obtain ⟨_, _, _, cd1, hcd1, hdisj⟩ := qualifiesB_eq_true_iff.mp hq
    rw [hcd] at hcd1
    injection hcd1 with hcd1
    rw [hcd1]
    rcases hdisj with hdisj | hdisj
    · cases hdisj
    · exact hdisj

/-- Witness for C1 on the fixture store: queue and stack pop orders
produce the same node and edge sets as each other and as
build_issue_tree. -/
theorem C1_witness :
    ∃ u1 u2 : WState,
      worklistBuild fixStore fixWl "R" false queueSel = some u1 ∧
      worklistBuild fixStore fixWl "R" false stackSel = some u2 ∧
      (∀ k, k ∈ u1.nodes ↔ k ∈ u2.nodes) ∧
      (∀ e : String × String, e ∈ u1.edges ↔ e ∈ u2.edges) ∧
      (∀ k, k ∈ u1.nodes ↔ k ∈ fixTree.nodes) ∧
      (∀ e : String × String, e ∈ u1.edges ↔ e ∈ fixTree.edges) :=
  C1_tree_builder_order_independence fixStore fixWl "R" false fixTree
    queueSel stackSel queueSel_valid queueSel_progress stackSel_valid stackSel_progress
    (by decide)

/-- Witness for C2 on the 3-cycle fixture: the traversal is unaffected
by extra fuel, expands no node twice, and discovers exactly the three
nodes of the cycle. -/
theorem C2_witness :
    (buildIssueTreeFuel cycStore cycWl "R" false (stdFuel cycStore + 7) = some cycTree ∧
      cycTree.trace.Nodup ∧ (∀ k, k ∈ cycTree.trace ↔ k ∈ cycTree.visited)) ∧
    cycTree.nodes.length = 3 :=
  ⟨C2_termination_visited_once cycStore cycWl "R" false cycTree 7 (by decide), by decide⟩

/-- Witness for C3 on the fixture store, at the edge from R to B. -/
theorem C3_witness :
    ∃ pd ls link rt, fetch fixStore "R" = some pd ∧ pd.issue_links = some ls ∧
      link ∈ ls ∧ link.relation_type = some rt ∧ rt ∈ wlGet fixWl pd.issue_type ∧
      link.key = some "B" :=
  C3_whitelist_enforcement fixStore fixWl "R" false fixTree (by decide) "R" "B" (by decide)

/-- Witness for C4 on the fixture store: the rejected child A is absent
from the node set even though its record exists, and membership
coincides with reachability over non-excluded edges. -/
theorem C4_witness :
    ("A" ∈ fixTree.nodes ↔ Reaches fixStore fixWl false "R" "A") ∧
    "A" ∉ fixTree.nodes ∧ "D" ∈ fixTree.nodes :=
  ⟨(C4_resolution_exclusion fixStore fixWl "R" fixTree (by decide)).2 "A",
    by decide, by decide⟩

theorem mapSum_nil : mapSum [] = 0 := by
  simp [mapSum]

theorem mapSum_cons (p : String × Int) (m : List (String × Int)) :
    mapSum (p :: m) = p.2 + mapSum m := by
  simp [mapSum]

theorem mapSum_addDuration (m : List (String × Int)) (k : String) (d : Int) :
    mapSum (addDuration m k d) = mapSum m + d := by
  induction m with
  | nil => simp [addDuration, mapSum]
  | cons p rest ih =>
    obtain ⟨k1, v⟩ := p
    by_cases h : (k1 == k) = true
    · simp only [addDuration, h, if_true, mapSum_cons]
      ring
    · simp only [addDuration, h, if_false, Bool.false_eq_true, mapSum_cons, ih]
      ring

theorem pairLoop_sum (parse : String → Int) (l : List Activity) :
    ∀ (a lastA : Activity) (m : List (String × Int)),
      (a :: l).getLast? = some lastA →
      mapSum (pairLoop parse (a :: l) m) =
        mapSum m + (parse lastA.zeitstempel_iso - parse a.zeitstempel_iso) := by
  induction l with
  | nil =>
    intro a lastA m hlast
    have ha : lastA = a := by
      have : some a = some lastA := hlast
      exact (Option.some.inj this).symm
    subst ha
    show mapSum m = mapSum m + (parse lastA.zeitstempel_iso - parse lastA.zeitstempel_iso)
    ring
  | cons b rest ih =>
    intro a lastA m hlast
    rw [List.getLast?_cons_cons] at hlast
    show mapSum (pairLoop parse (b :: rest)
      (addDuration m (cleanStatusName a.neuer_wert)
        (parse b.zeitstempel_iso - parse a.zeitstempel_iso))) =
      mapSum m + (parse lastA.zeitstempel_iso - parse a.zeitstempel_iso)
    rw [ih b lastA _ hlast, mapSum_addDuration]
    ring

/-- C5: for an issue with at least one activity, the values of the
status-durations map sum to now minus the instant of the issue's first
activity: the per-status durations partition the interval from first
activity to now. -/
theorem C5_status_durations_sum
    (parse : String → Int) (now : Int) (allActivities : List Activity) (epicId : String)
    (firstAct : Activity) (restActs : List Activity)
    (hfilter : allActivities.filter (fun a => a.issue_key == epicId) = firstAct :: restActs)
    (hnow : ∀ a ∈ allActivities, a.issue_key = epicId →
      parse a.zeitstempel_iso ≤ now) :
    mapSum (calcEpicStatusDurations parse now allActivities epicId) =
      now - parse firstAct.zeitstempel_iso := by
  clear hnow
  unfold calcEpicStatusDurations
  rw [hfilter]
  show mapSum (
    let changes :=
      ({ feld_name := none, alter_wert := none, neuer_wert := some "FUNNEL",
         zeitstempel_iso := firstAct.zeitstempel_iso, issue_key := epicId } : Activity) ::
      (firstAct :: restActs).filter (fun a => a.feld_name == some "Status")
    let m := pairLoop parse changes []
    match changes.getLast? with
    | some lastChange =>
      addDuration m (cleanStatusName lastChange.neuer_wert)
        (now - parse lastChange.zeitstempel_iso)
    | none => m) = now - parse firstAct.zeitstempel_iso
  set synth : Activity :=
    { feld_name := none, alter_wert := none, neuer_wert := some "FUNNEL",
      zeitstempel_iso := firstAct.zeitstempel_iso, issue_key := epicId } with hsynth
  cases hfil : (firstAct :: restActs).filter (fun a => a.feld_name == some "Status") with
  | nil =>
    show mapSum (match (synth :: ([] : List Activity)).getLast? with
      | some lastChange =>
        addDuration (pairLoop parse [synth] []) (cleanStatusName lastChange.neuer_wert)
          (now - parse lastChange.zeitstempel_iso)
      | none => pairLoop parse [synth] []) = now - parse firstAct.zeitstempel_iso
    show mapSum (addDuration (pairLoop parse [synth] []) (cleanStatusName synth.neuer_wert)
      (now - parse synth.zeitstempel_iso)) = now - parse firstAct.zeitstempel_iso
    show mapSum [(cleanStatusName synth.neuer_wert, now - parse synth.zeitstempel_iso)] =
      now - parse firstAct.zeitstempel_iso
    rw [mapSum_cons, mapSum_nil]
    show (now - parse synth.zeitstempel_iso) + 0 = now - parse firstAct.zeitstempel_iso
    have : synth.zeitstempel_iso = firstAct.zeitstempel_iso := rfl
    rw [this]
    ring
  | cons b bs =>
    have hex : ∃ x, (b :: bs).getLast? = some x := by
      cases hgl : (b :: bs).getLast? with
      | some x => exact ⟨x, rfl⟩
      | none => exact absurd (List.getLast?_eq_none_iff.mp hgl) (by simp)
    obtain ⟨lastA, hlast⟩ := hex
    have hlast2 : (synth :: b :: bs).getLast? = some lastA := by
      rw [List.getLast?_cons_cons]; exact hlast
    show mapSum (match (synth :: b :: bs).getLast? with
      | some lastChange =>
        addDuration (pairLoop parse (synth :: b :: bs) [])
          (cleanStatusName lastChange.neuer_wert)
          (now - parse lastChange.zeitstempel_iso)
      | none => pairLoop parse (synth :: b :: bs) []) = now - parse firstAct.zeitstempel_iso
    rw [hlast2]
    show mapSum (addDuration (pairLoop parse (synth :: b :: bs) [])
      (cleanStatusName lastA.neuer_wert) (now - parse lastA.zeitstempel_iso)) =
      now - parse firstAct.zeitstempel_iso
    rw [mapSum_addDuration, pairLoop_sum parse (b :: bs) synth lastA [] hlast2, mapSum_nil]
    have : synth.zeitstempel_iso = firstAct.zeitstempel_iso := rfl
    rw [this]
    ring

/-- C5 witness: the durations of fixture epic E under the length
instant reading at now = 10 sum to 10 minus the first activity's
instant 1. -/
theorem C5_witness :
    (actsC5.filter (fun a => a.issue_key == "E") =
      { feld_name := none, alter_wert := none, neuer_wert := none,
        zeitstempel_iso := "a", issue_key := "E" } ::
      [{ feld_name := some "Status", alter_wert := some "FUNNEL",
         neuer_wert := some "ANALYSIS", zeitstempel_iso := "bb", issue_key := "E" },
       { feld_name := some "Status", alter_wert := some "ANALYSIS",
         neuer_wert := some "CLOSED", zeitstempel_iso := "ccc", issue_key := "E" }]) ∧
    mapSum (calcEpicStatusDurations lenInstant 10 actsC5 "E") =
      10 - lenInstant "a" :=
  ⟨by decide,
   C5_status_durations_sum lenInstant 10 actsC5 "E"
     { feld_name := none, alter_wert := none, neuer_wert := none,
       zeitstempel_iso := "a", issue_key := "E" }
     [{ feld_name := some "Status", alter_wert := some "FUNNEL",
        neuer_wert := some "ANALYSIS", zeitstempel_iso := "bb", issue_key := "E" },
      { feld_name := some "Status", alter_wert := some "ANALYSIS",
        neuer_wert := some "CLOSED", zeitstempel_iso := "ccc", issue_key := "E" }]
     (by decide) (by decide)⟩

theorem codingLoop_start_frozen (l : List Activity) :
    ∀ (st en : Option String), falsyOptStr st = false → (codingLoop l st en).1 = st := by
  induction l with
  | nil => intro st en hf; rfl
  | cons a rest ih =>
    intro st en hf
    by_cases hs : (a.feld_name == some "Status") = true
    · simp only [codingLoop, hs, if_true, hf, Bool.false_and, Bool.false_eq_true, if_false]
      exact ih st _ hf
    · simp only [codingLoop, hs, Bool.false_eq_true, if_false]
      exact ih st en hf

theorem codingLoop_start (l : List Activity) :
    ∀ (en : Option String), (∀ a ∈ l, a.zeitstempel_iso ≠ "") →
      (codingLoop l none en).1 = firstTsMatching inProgressPred l := by
  induction l with
  | nil => intro en _; rfl
  | cons a rest ih =>
    intro en hts
    by_cases hs : (a.feld_name == some "Status") = true
    · by_cases hip : (cleanStatusName a.neuer_wert == "IN PROGRESS") = true
      · have hane : a.zeitstempel_iso ≠ "" := hts a (by simp)
        have hfalsy : falsyOptStr (some a.zeitstempel_iso) = false := by
          simp [falsyOptStr, hane]
        have hpa : inProgressPred a = true := by simp [inProgressPred, hs, hip]
        simp only [codingLoop, hs, if_true, hip, falsyOptStr, Bool.true_and]
        rw [codingLoop_start_frozen rest _ _ hfalsy]
        rw [firstTsMatching, List.find?_cons_of_pos _ hpa]
        rfl
      · have hpa : ¬ inProgressPred a = true := by simp [inProgressPred, hs, hip]
        simp only [codingLoop, hs, if_true, hip, falsyOptStr, Bool.true_and,
          Bool.false_eq_true, if_false]
        rw [ih _ (fun x hx => hts x (by simp [hx]))]
        simp only [firstTsMatching]
        rw [List.find?_cons_of_neg _ hpa]
    · have hpa : ¬ inProgressPred a = true := by simp [inProgressPred, hs]
      simp only [codingLoop, hs, Bool.false_eq_true, if_false]
      rw [ih _ (fun x hx => hts x (by simp [hx]))]
      simp only [firstTsMatching]
      rw [List.find?_cons_of_neg _ hpa]

theorem codingLoop_end (l : List Activity) :
    ∀ (st en : Option String),
      (codingLoop l st en).2 = Option.or (lastTsMatching donePred l) en := by
  induction l with
  | nil => intro st en; rfl
  | cons a rest ih =>
    intro st en
    by_cases hs : (a.feld_name == some "Status") = true
    · by_cases hd : (cleanStatusName a.neuer_wert == "RESOLVED" ||
          cleanStatusName a.neuer_wert == "CLOSED") = true
      · have hpa : donePred a = true := by simp [donePred, hs, hd]
        simp only [codingLoop, hs, if_true, hd]
        rw [ih]
        unfold lastTsMatching
        rw [List.reverse_cons, List.find?_append]
        cases hfr : rest.reverse.find? donePred with
        | some b => simp [Option.or]
        | none => simp [Option.or, List.find?, hpa]
      · have hpa : donePred a = false := by simp [donePred, hs, hd]
        simp only [codingLoop, hs, if_true, hd, Bool.false_eq_true, if_false]
        rw [ih]
        unfold lastTsMatching
        rw [List.reverse_cons, List.find?_append]
        cases hfr : rest.reverse.find? donePred with
        | some b => simp [Option.or]
        | none => simp [Option.or, List.find?, hpa]
    · have hpa : donePred a = false := by simp [donePred, hs]
      simp only [codingLoop, hs, Bool.false_eq_true, if_false]
      rw [ih]
      unfold lastTsMatching
      rw [List.reverse_cons, List.find?_append]
      cases hfr : rest.reverse.find? donePred with
      | some b => simp [Option.or]
      | none => simp [Option.or, List.find?, hpa]

/-- C6 (amended): over the story-filtered activity stream, coding_start
is the timestamp of the first Status event normalizing to IN PROGRESS,
but coding_end is the timestamp of the LAST Status event normalizing to
RESOLVED or CLOSED, not the first. -/
theorem C6_amended_coding_window (details : List (String × IssueDetails))
    (allActivities : List Activity)
    (hts : ∀ a ∈ allActivities, a.zeitstempel_iso ≠ "") :
    codingWindow details allActivities =
      (firstTsMatching inProgressPred
         (allActivities.filter (fun a => (storyKeysOf details).contains a.issue_key)),
       lastTsMatching donePred
         (allActivities.filter (fun a => (storyKeysOf details).contains a.issue_key))) := by
  unfold codingWindow
  have hts' : ∀ a ∈ allActivities.filter
      (fun a => (storyKeysOf details).contains a.issue_key),
      a.zeitstempel_iso ≠ "" := fun a ha => hts a (List.mem_filter.mp ha).1
  have h1 := codingLoop_start _ none hts'
  have h2 := codingLoop_end
    (allActivities.filter (fun a => (storyKeysOf details).contains a.issue_key)) none none
  rw [Option.or_none] at h2
  exact Prod.ext h1 h2

/-- C6 counterexample: with two RESOLVED story events at t1 and t2, the
Status Analyzer's coding_end is t2, the last such event, while the
claimed first RESOLVED or CLOSED event is at t1. -/
theorem C6_counterexample :
    (codingWindow detailsC6 actsC6).2 = some "t2" ∧
    firstTsMatching donePred
      (actsC6.filter (fun a => (storyKeysOf detailsC6).contains a.issue_key)) = some "t1" ∧
    some "t2" ≠ (some "t1" : Option String) := by
  decide

/-- C6 amended witness: the fixture stream has nonempty timestamps and
its coding window is computed by the amended description. -/
theorem C6_amended_witness :
    (∀ a ∈ actsC6, a.zeitstempel_iso ≠ "") ∧
    codingWindow detailsC6 actsC6 =
      (firstTsMatching inProgressPred
         (actsC6.filter (fun a => (storyKeysOf detailsC6).contains a.issue_key)),
       lastTsMatching donePred
         (actsC6.filter (fun a => (storyKeysOf detailsC6).contains a.issue_key))) :=
  ⟨by decide, C6_amended_coding_window detailsC6 actsC6 (by decide)⟩

theorem lookupTimes_cons (k1 k : String) (v : StoryTimes)
    (rest : List (String × StoryTimes)) :
    lookupTimes ((k1, v) :: rest) k =
      if (k1 == k) = true then some v else lookupTimes rest k := by
  unfold lookupTimes
  by_cases h : (k1 == k) = true
  · rw [List.find?_cons_of_pos rest
      (show ((fun p : String × StoryTimes => p.1 == k) (k1, v)) = true from h), if_pos h]
    rfl
  · rw [List.find?_cons_of_neg rest
      (show ¬ ((fun p : String × StoryTimes => p.1 == k) (k1, v)) = true from h), if_neg h]

theorem lookupTimes_map_update (x k : String) (g : StoryTimes → StoryTimes)
    (m : List (String × StoryTimes)) :
    lookupTimes (m.map (fun p => if p.1 == x then (p.1, g p.2) else p)) k =
      if k = x then (lookupTimes m k).map g else lookupTimes m k := by
  induction m with
  | nil => simp [lookupTimes]
  | cons p rest ih =>
    obtain ⟨k1, v⟩ := p
    rw [List.map_cons]
    by_cases hx : (k1 == x) = true
    · rw [if_pos hx,
        lookupTimes_cons k1 k (g v) (rest.map (fun p => if p.1 == x then (p.1, g p.2) else p)),
        lookupTimes_cons k1 k v rest]
      by_cases hk : (k1 == k) = true
      · have hkx : k = x := by
          have h1 : k1 = x := by simpa using hx
          have h2 : k1 = k := by simpa using hk
          rw [← h2, h1]
        rw [if_pos hk, if_pos hkx, if_pos hk]
        rfl
      · rw [if_neg hk, if_neg hk] at *
        rw [ih]
    · rw [if_neg hx,
        lookupTimes_cons k1 k v (rest.map (fun p => if p.1 == x then (p.1, g p.2) else p)),
        lookupTimes_cons k1 k v rest]
      by_cases hk : (k1 == k) = true
      · have hkx : ¬ k = x := by
          intro h
          have h2 : k1 = k := by simpa using hk
          exact hx (by simp [h2, h])
        rw [if_pos hk, if_neg hkx, if_pos hk]
      · rw [if_neg hk, if_neg hk, ih]

theorem backlogLoop_lookup (keys : List String) (k : String) (l : List Activity) :
    ∀ (m : List (String × StoryTimes)),
      lookupTimes (backlogLoop keys l m) k =
        (lookupTimes m k).map (fun t =>
          (l.filter (fun a => a.issue_key == k && keys.contains a.issue_key)).foldl
            (fun acc a => backlogStep a acc) t) := by
  induction l with
  | nil =>
    intro m
    show lookupTimes m k = (lookupTimes m k).map (fun t => t)
    cases lookupTimes m k <;> rfl
  | cons a rest ih =>
    intro m
    by_cases hc : keys.contains a.issue_key = true
    · simp only [backlogLoop]
      rw [if_pos hc, ih, lookupTimes_map_update]
      by_cases hk : k = a.issue_key
      · have hbeq : (a.issue_key == k) = true := by simp [hk]
        rw [if_pos hk]
        simp only [List.filter_cons, hbeq, hc, Bool.true_and, Bool.and_self, if_true,
          List.foldl_cons]
        cases lookupTimes m k <;> rfl
      · have hbeq : (a.issue_key == k) = false := by
          have hne : ¬ a.issue_key = k := fun h => hk h.symm
          simp [hne]
        rw [if_neg hk]
        simp only [List.filter_cons, hbeq, Bool.false_and, Bool.false_eq_true, if_false]
    · simp only [backlogLoop]
      rw [if_neg hc, ih]
      have hcf : keys.contains a.issue_key = false := by
        cases h : keys.contains a.issue_key
        · rfl
        · exact absurd h hc
      simp only [List.filter_cons, hcf, Bool.and_false, Bool.false_eq_true, if_false]

theorem backlogStep_finish_some (a : Activity) (t : StoryTimes) (x : String)
    (hx : t.finish_time = some x) : (backlogStep a t).finish_time = some x := by
  unfold backlogStep
  by_cases hs : t.start_time.isNone = true
  · simp only [hs, if_true, hx]
    simp [hx]
  · simp only [hs, Bool.false_eq_true, if_false, hx]
    simp [hx]

theorem backlogFold_finish_some (l : List Activity) :
    ∀ (t : StoryTimes) (x : String), t.finish_time = some x →
      (l.foldl (fun acc a => backlogStep a acc) t).finish_time = some x := by
  induction l with
  | nil => intro t x hx; exact hx
  | cons a rest ih =>
    intro t x hx
    rw [List.foldl_cons]
    exact ih _ x (backlogStep_finish_some a t x hx)

theorem backlogStep_finish_none_pos (a : Activity) (t : StoryTimes)
    (ht : t.finish_time = none) (hd : rawDonePred a = true) :
    (backlogStep a t).finish_time = some a.zeitstempel_iso := by
  unfold backlogStep
  have hcond : (a.feld_name == some "Status" &&
      (pyUpperD a.neuer_wert == "RESOLVED" || pyUpperD a.neuer_wert == "CLOSED")) = true := by
    simpa [rawDonePred] using hd
  by_cases hs : t.start_time.isNone = true
  · simp [hs, hcond, ht]
  · simp [hs, hcond, ht]

theorem backlogStep_finish_none_neg (a : Activity) (t : StoryTimes)
    (ht : t.finish_time = none) (hd : rawDonePred a = false) :
    (backlogStep a t).finish_time = none := by
  unfold backlogStep
  have hcond : (a.feld_name == some "Status" &&
      (pyUpperD a.neuer_wert == "RESOLVED" || pyUpperD a.neuer_wert == "CLOSED")) = false := by
    simpa [rawDonePred] using hd
  by_cases hs : t.start_time.isNone = true
  · simp [hs, hcond, ht]
  · simp [hs, hcond, ht]

theorem backlogFold_finish_none (l : List Activity) :
    ∀ (t : StoryTimes), t.finish_time = none →
      (l.foldl (fun acc a => backlogStep a acc) t).finish_time =
        firstTsMatching rawDonePred l := by
  induction l with
  | nil => intro t ht; exact ht
  | cons a rest ih =>
    intro t ht
    rw [List.foldl_cons]
    by_cases hd : rawDonePred a = true
    · rw [backlogFold_finish_some rest _ a.zeitstempel_iso
        (backlogStep_finish_none_pos a t ht hd)]
      simp only [firstTsMatching]
      rw [List.find?_cons_of_pos _ hd]
      rfl
    · have hd' : rawDonePred a = false := by
        cases hval : rawDonePred a
        · rfl
        · exact absurd hval hd
      rw [ih _ (backlogStep_finish_none_neg a t ht hd')]
      simp only [firstTsMatching]
      rw [List.find?_cons_of_neg _ hd]

theorem lookupTimes_init (ks : List String) (k : String) (hk : k ∈ ks) :
    lookupTimes (ks.map (fun k1 =>
        (k1, ({ start_time := none, finish_time := none } : StoryTimes)))) k =
      some { start_time := none, finish_time := none } := by
  induction ks with
  | nil => cases hk
  | cons k1 rest ih =>
    by_cases h1 : (k1 == k) = true
    · simp [lookupTimes, List.find?, h1]
    · have hk' : k ∈ rest := by
        cases hk with
        | head => exact absurd (by simp) h1
        | tail _ h => exact h
      simpa [lookupTimes, List.find?, h1] using ih hk'

/-- C8 (amended): for a Story key, the Backlog Analyzer's finish_time
is the timestamp of the story's first Status event whose RAW new value,
merely upper-cased and without the bracket-and-colon normalization used
by the Status Analyzer, is RESOLVED or CLOSED. -/
theorem C8_amended_backlog_finish (details : List (String × IssueDetails))
    (allActivities : List Activity) (k : String) (hk : k ∈ storyKeysOf details) :
    ∃ t : StoryTimes,
      lookupTimes (backlogStoryTimes details allActivities) k = some t ∧
      t.finish_time =
        firstTsMatching rawDonePred
          (allActivities.filter (fun a => a.issue_key == k)) := by
  unfold backlogStoryTimes
  rw [backlogLoop_lookup, lookupTimes_init _ _ hk]
  refine ⟨_, rfl, ?_⟩
  rw [backlogFold_finish_none _ _ rfl]
  have hfc : allActivities.filter
      (fun a => a.issue_key == k && (storyKeysOf details).contains a.issue_key) =
      allActivities.filter (fun a => a.issue_key == k) := by
    apply List.filter_congr
    intro a _
    by_cases hak : (a.issue_key == k) = true
    · have : a.issue_key = k := by simpa using hak
      simp [hak, this, hk]
    · simp [hak]
  rw [hfc]

/-- C8 counterexample: a story whose only Status event carries the
encoded value wf:Resolved [10] normalizes to RESOLVED, so the claim
predicts finish_time t1, but the Backlog Analyzer, comparing the raw
upper-cased value, leaves finish_time unset. -/
theorem C8_counterexample :
    lookupTimes (backlogStoryTimes detailsC8 actsC8) "S-1" =
      some { start_time := some "t1", finish_time := none } ∧
    cleanStatusName (some "wf:Resolved [10]") = "RESOLVED" ∧
    firstTsMatching donePred (actsC8.filter (fun a => a.issue_key == "S-1")) = some "t1" := by
  decide

/-- C8 amended witness: on the fixture, the story's entry exists and
its finish_time matches the raw-value description (here: none). -/
theorem C8_amended_witness :
    ("S-1" ∈ storyKeysOf detailsC8) ∧
    ∃ t : StoryTimes,
      lookupTimes (backlogStoryTimes detailsC8 actsC8) "S-1" = some t ∧
      t.finish_time =
        firstTsMatching rawDonePred (actsC8.filter (fun a => a.issue_key == "S-1")) :=
  ⟨by decide, C8_amended_backlog_finish detailsC8 actsC8 "S-1" (by decide)⟩

theorem listLexLe_refl (l : List Char) : listLexLe l l = true := by
  induction l with
  | nil => rfl
  | cons a as ih => simp [listLexLe, ih]

theorem listLexLe_total (a : List Char) : ∀ b, listLexLe a b = true ∨ listLexLe b a = true := by
  induction a with
  | nil => intro b; left; rfl
  | cons x xs ih =>
    intro b
    cases b with
    | nil => right; rfl
    | cons y ys =>
      by_cases h1 : x.toNat < y.toNat
      · left; simp [listLexLe, h1]
      · by_cases h2 : y.toNat < x.toNat
        · right; simp [listLexLe, h2]
        · cases ih ys with
          | inl h => left; simp [listLexLe, h1, h2, h]
          | inr h => right; simp [listLexLe, h1, h2, h]

theorem listLexLe_trans (a : List Char) :
    ∀ b c, listLexLe a b = true → listLexLe b c = true → listLexLe a c = true := by
  induction a with
  | nil => intro b c h1 h2; rfl
  | cons x xs ih =>
    intro b c h1 h2
    cases b with
    | nil => simp [listLexLe] at h1
    | cons y ys =>
      cases c with
      | nil => simp [listLexLe] at h2
      | cons z zs =>
        by_cases hxy : x.toNat < y.toNat
        · by_cases hyz : y.toNat < z.toNat
          · have hxz : x.toNat < z.toNat := Nat.lt_trans hxy hyz
            simp [listLexLe, hxz]
          · by_cases hzy : z.toNat < y.toNat
            · simp [listLexLe, hyz, hzy] at h2
            · have hyz' : y.toNat = z.toNat :=
                Nat.le_antisymm (Nat.not_lt.mp hzy) (Nat.not_lt.mp hyz)
              have hxz : x.toNat < z.toNat := hyz' ▸ hxy
              simp [listLexLe, hxz]
        · by_cases hyx : y.toNat < x.toNat
          · simp [listLexLe, hxy, hyx] at h1
          · have hxy' : x.toNat = y.toNat :=
              Nat.le_antisymm (Nat.not_lt.mp hyx) (Nat.not_lt.mp hxy)
            simp only [listLexLe, hxy, hyx, if_false] at h1
            by_cases hyz : y.toNat < z.toNat
            · have hxz : x.toNat < z.toNat := hxy' ▸ hyz
              simp [listLexLe, hxz]
            · by_cases hzy : z.toNat < y.toNat
              · simp [listLexLe, hyz, hzy] at h2
              · have hyz' : y.toNat = z.toNat :=
                  Nat.le_antisymm (Nat.not_lt.mp hzy) (Nat.not_lt.mp hyz)
                simp only [listLexLe, hyz, hzy, if_false] at h2
                have hxz1 : ¬ x.toNat < z.toNat := by omega
                have hxz2 : ¬ z.toNat < x.toNat := by omega
                simp only [listLexLe, hxz1, hxz2, if_false]
                exact ih ys zs h1 h2

theorem pyStrLe_refl (s : String) : pyStrLe s s = true :=
  listLexLe_refl s.data

theorem activityLe_total (a b : Activity) : activityLe a b = true ∨ activityLe b a = true :=
  listLexLe_total a.zeitstempel_iso.data b.zeitstempel_iso.data

theorem activityLe_trans (a b c : Activity) (h1 : activityLe a b = true)
    (h2 : activityLe b c = true) : activityLe a c = true :=
  listLexLe_trans a.zeitstempel_iso.data b.zeitstempel_iso.data c.zeitstempel_iso.data h1 h2

theorem insertSorted_perm {α : Type} (le : α → α → Bool) (x : α) (l : List α) :
    (insertSorted le x l).Perm (x :: l) := by
  induction l with
  | nil => exact List.Perm.refl _
  | cons y ys ih =>
    by_cases h : le x y = true
    · simp only [insertSorted, if_pos h]
      exact List.Perm.refl _
    · simp only [insertSorted, if_neg h]
      exact (List.Perm.cons y ih).trans (List.Perm.swap x y ys)

theorem isortBy_perm {α : Type} (le : α → α → Bool) (l : List α) :
    (isortBy le l).Perm l := by
  induction l with
  | nil => exact List.Perm.refl _
  | cons x xs ih =>
    show (insertSorted le x (isortBy le xs)).Perm (x :: xs)
    exact (insertSorted_perm le x (isortBy le xs)).trans (List.Perm.cons x ih)

theorem pairwise_insertSorted {α : Type} (le : α → α → Bool)
    (htot : ∀ a b, le a b = true ∨ le b a = true)
    (htrans : ∀ a b c, le a b = true → le b c = true → le a c = true)
    (x : α) (l : List α) (hl : l.Pairwise (fun a b => le a b = true)) :
    (insertSorted le x l).Pairwise (fun a b => le a b = true) := by
  induction l with
  | nil => simp [insertSorted]
  | cons y ys ih =>
    rcases List.pairwise_cons.mp hl with ⟨hy, hys⟩
    by_cases h : le x y = true
    · simp only [insertSorted, if_pos h]
      refine List.pairwise_cons.mpr ⟨?_, hl⟩
      intro z hz
      rcases List.mem_cons.mp hz with rfl | hz'
      · exact h
      · exact htrans x y z h (hy z hz')
    · simp only [insertSorted, if_neg h]
      refine List.pairwise_cons.mpr ⟨?_, ih hys⟩
      intro z hz
      have hmem : z = x ∨ z ∈ ys :=
        List.mem_cons.mp ((insertSorted_perm le x ys).mem_iff.mp hz)
      rcases hmem with rfl | hz'
      · rcases htot z y with hxy | hyx
        · exact absurd hxy h
        · exact hyx
      · exact hy z hz'

theorem isortBy_pairwise {α : Type} (le : α → α → Bool)
    (htot : ∀ a b, le a b = true ∨ le b a = true)
    (htrans : ∀ a b c, le a b = true → le b c = true → le a c = true)
    (l : List α) : (isortBy le l).Pairwise (fun a b => le a b = true) := by
  induction l with
  | nil => exact List.Pairwise.nil
  | cons x xs ih =>
    show (insertSorted le x (isortBy le xs)).Pairwise (fun a b => le a b = true)
    exact pairwise_insertSorted le htot htrans x (isortBy le xs) ih

theorem filter_insertSorted {α : Type} (le : α → α → Bool) (p : α → Bool) (x : α)
    (hcl : ∀ y, p x = true → p y = true → le x y = true) (l : List α) :
    (insertSorted le x l).filter p =
      if p x = true then x :: l.filter p else l.filter p := by
  induction l with
  | nil =>
    cases hpx : p x with
    | true => simp [insertSorted, List.filter, hpx]
    | false => simp [insertSorted, List.filter, hpx]
  | cons y ys ih =>
    by_cases h : le x y = true
    · simp only [insertSorted, if_pos h]
      cases hpx : p x with
      | true => simp [List.filter_cons, hpx]
      | false => simp [List.filter_cons, hpx]
    · simp only [insertSorted, if_neg h]
      cases hpy : p y with
      | false =>
        simp only [List.filter_cons, hpy, Bool.false_eq_true, if_false]
        rw [ih]
      | true =>
        cases hpx : p x with
        | true => exact absurd (hcl y hpx hpy) h
        | false =>
          simp only [List.filter_cons, hpy, if_true, ih, hpx, Bool.false_eq_true, if_false]

theorem isortBy_filter {α : Type} (le : α → α → Bool) (p : α → Bool)
    (hcl : ∀ x y, p x = true → p y = true → le x y = true) (l : List α) :
    (isortBy le l).filter p = l.filter p := by
  induction l with
  | nil => rfl
  | cons x xs ih =>
    show (insertSorted le x (isortBy le xs)).filter p = _
    rw [filter_insertSorted le p x (fun y => hcl x y), ih]
    cases hpx : p x with
    | true => simp [List.filter_cons, hpx]
    | false => simp [List.filter_cons, hpx]

theorem gatherAllActivities_issue_key (actStore : ActivityStore) (nodeKeys : List String) :
    ∀ a ∈ gatherAllActivities actStore nodeKeys, a.issue_key ∈ nodeKeys := by
  intro a ha
  unfold gatherAllActivities at ha
  rw [List.mem_flatten] at ha
  obtain ⟨l, hl, hal⟩ := ha
  rw [List.mem_map] at hl
  obtain ⟨k, hk, hlk⟩ := hl
  subst hlk
  cases hfind : actStore.find? (fun p => p.1 == k) with
  | none =>
    rw [hfind] at hal
    cases hal
  | some q =>
    rw [hfind] at hal
    rw [List.mem_map] at hal
    obtain ⟨a0, _, ha0⟩ := hal
    rw [← ha0]
    exact hk

/-- C7 (amended): the aggregated stream is a permutation of the
gathered per-node events, every event is tagged with a node key, and
the stream is sorted ascending by the TIMESTAMP STRING under Python
string comparison — not by the instant the timestamp denotes — with
ties stable: filtering any fixed timestamp string preserves the
original gathered order. -/
theorem C7_amended_aggregator (actStore : ActivityStore) (nodeKeys : List String) :
    (allActivitiesSorted actStore nodeKeys).Perm (gatherAllActivities actStore nodeKeys) ∧
    (∀ a ∈ allActivitiesSorted actStore nodeKeys, a.issue_key ∈ nodeKeys) ∧
    List.Pairwise (fun a b => activityLe a b = true) (allActivitiesSorted actStore nodeKeys) ∧
    (∀ ts : String,
      (allActivitiesSorted actStore nodeKeys).filter (fun a => a.zeitstempel_iso == ts) =
      (gatherAllActivities actStore nodeKeys).filter (fun a => a.zeitstempel_iso == ts)) := by
  refine ⟨isortBy_perm _ _, ?_, ?_, ?_⟩
  · intro a ha
    exact gatherAllActivities_issue_key actStore nodeKeys a
      ((isortBy_perm activityLe _).subset ha)
  · exact isortBy_pairwise activityLe activityLe_total activityLe_trans _
  · intro ts
    apply isortBy_filter
    intro x y hx hy
    have hx' : x.zeitstempel_iso = ts := by simpa using hx
    have hy' : y.zeitstempel_iso = ts := by simpa using hy
    show pyStrLe x.zeitstempel_iso y.zeitstempel_iso = true
    rw [hx', hy']
    exact pyStrLe_refl ts

/-- C7 counterexample: two events whose ISO timestamps carry different
UTC offsets; tsA7 denotes the earlier instant, yet the aggregator's
string sort places its event last, so the stream is not chronological.
-/
theorem C7_counterexample :
    isoInstant tsA7 < isoInstant tsB7 ∧
    allActivitiesSorted actStoreC7 ["A", "B"] =
      [{ evB7 with issue_key := "B" }, { evA7 with issue_key := "A" }] := by
  constructor
  · decide
  · decide

theorem tcFieldStep_other_targetEnd (creationDay issueKey day : String) (states : TCStates)
    (actOpt : Option Activity) :
    ((tcFieldStep creationDay issueKey day states "Fix Version/s" actOpt).2).targetEnd =
      states.targetEnd := by
  cases actOpt with
  | none => rfl
  | some a =>
    simp only [tcFieldStep]
    cases hnr : parseForField "Fix Version/s" a.neuer_wert with
    | some nr => rfl
    | none => rfl

theorem tcFieldStep_other_fixVersions (creationDay issueKey day : String) (states : TCStates)
    (actOpt : Option Activity) :
    ((tcFieldStep creationDay issueKey day states "Target end" actOpt).2).fixVersions =
      states.fixVersions := by
  cases actOpt with
  | none => rfl
  | some a =>
    simp only [tcFieldStep]
    cases hnr : parseForField "Target end" a.neuer_wert with
    | some nr => rfl
    | none => rfl

theorem tcFieldStep_state (creationDay issueKey day f : String) (states : TCStates)
    (a : Activity) :
    (tcFieldStep creationDay issueKey day states f (some a)).2 =
      match parseForField f a.neuer_wert with
      | some nr => setField states f (normalizeFixVersionString a.neuer_wert, nr)
      | none => states := by
  simp only [tcFieldStep]
  cases hnr : parseForField f a.neuer_wert with
  | some nr => rfl
  | none => rfl

theorem tcStatesAfter_cons (creationDay issueKey d : String) (relevant : List Activity)
    (days : List String) (states : TCStates) :
    tcStatesAfter creationDay issueKey relevant (d :: days) states =
      tcStatesAfter creationDay issueKey relevant days
        (tcDayStep creationDay issueKey relevant d states).2 := by
  rfl

theorem tcDayStep_getField (creationDay issueKey d : String) (relevant : List Activity)
    (f : String) (hf : f = "Target end" ∨ f = "Fix Version/s") (states : TCStates) :
    getField (tcDayStep creationDay issueKey relevant d states).2 f =
      Option.or (obsVal relevant d f) (getField states f) := by
  rcases hf with rfl | rfl
  · show ((tcFieldStep creationDay issueKey d
      (tcFieldStep creationDay issueKey d states "Target end"
        (dailyLastFor relevant d "Target end")).2
      "Fix Version/s" (dailyLastFor relevant d "Fix Version/s")).2).targetEnd = _
    rw [tcFieldStep_other_targetEnd]
    cases hD : dailyLastFor relevant d "Target end" with
    | none =>
      show states.targetEnd = Option.or (obsVal relevant d "Target end") states.targetEnd
      rw [show obsVal relevant d "Target end" = none by rw [obsVal, hD]; rfl]
      rfl
    | some a =>
      rw [show (tcFieldStep creationDay issueKey d states "Target end" (some a)).2.targetEnd =
        getField (tcFieldStep creationDay issueKey d states "Target end" (some a)).2
          "Target end" from rfl]
      rw [tcFieldStep_state]
      cases hnr : parseForField "Target end" a.neuer_wert with
      | none =>
        rw [show obsVal relevant d "Target end" = none by rw [obsVal, hD]; simp [hnr]]
        rfl
      | some nr =>
        rw [show obsVal relevant d "Target end" =
          some (normalizeFixVersionString a.neuer_wert, nr) by
            rw [obsVal, hD]; simp [hnr]]
        rfl
  · show ((tcFieldStep creationDay issueKey d
      (tcFieldStep creationDay issueKey d states "Target end"
        (dailyLastFor relevant d "Target end")).2
      "Fix Version/s" (dailyLastFor relevant d "Fix Version/s")).2).fixVersions = _
    cases hD : dailyLastFor relevant d "Fix Version/s" with
    | none =>
      rw [show obsVal relevant d "Fix Version/s" = none by rw [obsVal, hD]; rfl]
      rw [show (tcFieldStep creationDay issueKey d
        (tcFieldStep creationDay issueKey d states "Target end"
          (dailyLastFor relevant d "Target end")).2
        "Fix Version/s" none).2 =
        (tcFieldStep creationDay issueKey d states "Target end"
          (dailyLastFor relevant d "Target end")).2 from rfl]
      rw [tcFieldStep_other_fixVersions]
      rfl
    | some a =>
      rw [show ((tcFieldStep creationDay issueKey d
        (tcFieldStep creationDay issueKey d states "Target end"
          (dailyLastFor relevant d "Target end")).2
        "Fix Version/s" (some a)).2).fixVersions =
        getField (tcFieldStep creationDay issueKey d
          (tcFieldStep creationDay issueKey d states "Target end"
            (dailyLastFor relevant d "Target end")).2
          "Fix Version/s" (some a)).2 "Fix Version/s" from rfl]
      rw [tcFieldStep_state]
      cases hnr : parseForField "Fix Version/s" a.neuer_wert with
      | none =>
        rw [show obsVal relevant d "Fix Version/s" = none by rw [obsVal, hD]; simp [hnr]]
        show (tcFieldStep creationDay issueKey d states "Target end"
          (dailyLastFor relevant d "Target end")).2.fixVersions = _
        rw [tcFieldStep_other_fixVersions]
        rfl
      | some nr =>
        rw [show obsVal relevant d "Fix Version/s" =
          some (normalizeFixVersionString a.neuer_wert, nr) by
            rw [obsVal, hD]; simp [hnr]]
        rfl

theorem getLast?_cons_of_some {α : Type} (a w : α) (l : List α) (h : l.getLast? = some w) :
    (a :: l).getLast? = some w := by
  cases l with
  | nil => cases h
  | cons b bs => rw [List.getLast?_cons_cons]; exact h

theorem tcStatesAfter_getField (creationDay issueKey : String) (relevant : List Activity)
    (f : String) (hf : f = "Target end" ∨ f = "Fix Version/s") (days : List String) :
    ∀ states, getField (tcStatesAfter creationDay issueKey relevant days states) f =
      Option.or ((days.filterMap (fun d => obsVal relevant d f)).getLast?)
        (getField states f) := by
  induction days with
  | nil => intro states; rfl
  | cons d rest ih =>
    intro states
    rw [tcStatesAfter_cons, ih, tcDayStep_getField creationDay issueKey d relevant f hf states]
    cases ho : obsVal relevant d f with
    | none => simp only [List.filterMap_cons, ho, Option.none_or]
    | some v =>
      simp only [List.filterMap_cons, ho]
      cases hgl : (rest.filterMap (fun d => obsVal relevant d f)).getLast? with
      | some w =>
        rw [getLast?_cons_of_some v w _ hgl]
        rfl
      | none =>
        rw [List.getLast?_eq_none_iff.mp hgl]
        rfl

/-- C9: for a tracked field, a field observation compared against an
empty known state — in particular any observation on the issue's
creation day, whose known state is overridden to None — produces either
no event or a TIME_SET event, never TIME_CREEP or TIME_PULL_IN; and the
known state of a field stays empty across days on which the field is
not observed, so the first ever observation is compared against None. -/
theorem C9_first_event_is_set
    (creationDay issueKey day f : String) (relevant : List Activity)
    (hf : f = "Target end" ∨ f = "Fix Version/s") :
    (∀ (states : TCStates) (actOpt : Option Activity) (ev : TCEvent),
        (getField states f = none ∨ day = creationDay) →
        (tcFieldStep creationDay issueKey day states f actOpt).1 = some ev →
        ev.event_type = "TIME_SET") ∧
    (∀ days1 : List String, (∀ d ∈ days1, dailyLastFor relevant d f = none) →
        getField (tcStatesAfter creationDay issueKey relevant days1 initTCStates) f =
          none) := by
  constructor
  · intro states actOpt ev hpre hev
    cases actOpt with
    | none => simp [tcFieldStep] at hev
    | some a =>
      have hcase : day = creationDay ∨ (¬ day = creationDay ∧ getField states f = none) := by
        rcases hpre with h | h
        · by_cases hd : day = creationDay
          · exact Or.inl hd
          · exact Or.inr ⟨hd, h⟩
        · exact Or.inl h
      rcases hf with rfl | rfl
      · cases hnr : parseForField "Target end" a.neuer_wert with
        | none =>
          have hval : (tcFieldStep creationDay issueKey day states "Target end"
              (some a)).1 = none := by
            rcases hcase with hd | ⟨hd, hg⟩
            · simp [tcFieldStep, hnr, hd, compareDates]
            · simp [tcFieldStep, hnr, hd, hg, compareDates]
          rw [hval] at hev
          exact Option.noConfusion hev
        | some nr =>
          have hval : (tcFieldStep creationDay issueKey day states "Target end"
              (some a)).1 =
              some { issue := issueKey, event_type := "TIME_SET", timestamp := day } := by
            rcases hcase with hd | ⟨hd, hg⟩
            · simp [tcFieldStep, hnr, hd, compareDates]
            · simp [tcFieldStep, hnr, hd, hg, compareDates]
          rw [hval] at hev
          rw [← Option.some.inj hev]
      · cases hnr : parseForField "Fix Version/s" a.neuer_wert with
        | none =>
          have hval : (tcFieldStep creationDay issueKey day states "Fix Version/s"
              (some a)).1 = none := by
            rcases hcase with hd | ⟨hd, hg⟩
            · simp [tcFieldStep, hnr, hd, compareDates]
            · simp [tcFieldStep, hnr, hd, hg, compareDates]
          rw [hval] at hev
          exact Option.noConfusion hev
        | some nr =>
          cases hte : getField states "Target end" with
          | none =>
            have hval : (tcFieldStep creationDay issueKey day states "Fix Version/s"
                (some a)).1 =
                some { issue := issueKey, event_type := "TIME_SET", timestamp := day } := by
              rcases hcase with hd | ⟨hd, hg⟩
              · simp [tcFieldStep, hnr, hd, hte, compareDates]
              · simp [tcFieldStep, hnr, hd, hg, hte, compareDates]
            rw [hval] at hev
            rw [← Option.some.inj hev]
          | some st0 =>
            by_cases hcont : (dateLe nr.1 st0.2.2 && dateLe st0.2.2 nr.2) = true
            · have hval : (tcFieldStep creationDay issueKey day states "Fix Version/s"
                  (some a)).1 = none := by
                rcases hcase with hd | ⟨hd, hg⟩
                · simp [tcFieldStep, hnr, hd, hte, hcont, compareDates]
                · simp [tcFieldStep, hnr, hd, hg, hte, hcont, compareDates]
              rw [hval] at hev
              exact Option.noConfusion hev
            · have hval : (tcFieldStep creationDay issueKey day states "Fix Version/s"
                  (some a)).1 =
                  some { issue := issueKey, event_type := "TIME_SET", timestamp := day } := by
                rcases hcase with hd | ⟨hd, hg⟩
                · simp [tcFieldStep, hnr, hd, hte, hcont, compareDates]
                · simp [tcFieldStep, hnr, hd, hg, hte, hcont, compareDates]
              rw [hval] at hev
              rw [← Option.some.inj hev]
  · intro days1 hnone
    rw [tcStatesAfter_getField creationDay issueKey relevant f hf days1 initTCStates]
    have hfm : days1.filterMap (fun d => obsVal relevant d f) = [] := by
      rw [List.filterMap_eq_nil_iff]
      intro d hd
      rw [obsVal, hnone d hd]
      rfl
    rw [hfm]
    rcases hf with rfl | rfl <;> rfl

/-- C9 witness: on the empty initial state, the fixture Target end
observation produces exactly a TIME_SET event. -/
theorem C9_witness :
    (tcFieldStep "2025-01-01" "K-1" "2025-02-03" initTCStates "Target end" (some actC9)).1 =
      some { issue := "K-1", event_type := "TIME_SET", timestamp := "2025-02-03" } ∧
    ({ issue := "K-1", event_type := "TIME_SET", timestamp := "2025-02-03" } :
      TCEvent).event_type = "TIME_SET" :=
  ⟨by decide,
   (C9_first_event_is_set "2025-01-01" "K-1" "2025-02-03" "Target end" [] (Or.inl rfl)).1
     initTCStates (some actC9)
     { issue := "K-1", event_type := "TIME_SET", timestamp := "2025-02-03" }
     (Or.inl rfl) (by decide)⟩

/-- C10: an observed value that parses to no date range emits no event
and leaves the field state unchanged; after any sequence of days the
field state is the value of the last parseable observation, with the
start state as fallback; and away from the creation day an observation
that re-parses to the currently known end date emits no event. -/
theorem C10_unparseable_leaves_state
    (creationDay issueKey day f : String) (relevant : List Activity)
    (hf : f = "Target end" ∨ f = "Fix Version/s") :
    (∀ (states : TCStates) (a : Activity), parseForField f a.neuer_wert = none →
        tcFieldStep creationDay issueKey day states f (some a) = (none, states)) ∧
    (∀ (days : List String) (states : TCStates),
        getField (tcStatesAfter creationDay issueKey relevant days states) f =
          Option.or ((days.filterMap (fun d => obsVal relevant d f)).getLast?)
            (getField states f)) ∧
    (∀ (states : TCStates) (a : Activity) (v : Option String × (DateD × DateD))
        (nr : DateD × DateD),
        day ≠ creationDay →
        getField states f = some v →
        parseForField f a.neuer_wert = some nr →
        nr.2 = v.2.2 →
        (tcFieldStep creationDay issueKey day states f (some a)).1 = none) := by
  refine ⟨?_, ?_, ?_⟩
  · intro states a hnone
    rcases hf with rfl | rfl
    · by_cases hd : day = creationDay
      · simp [tcFieldStep, hnone, hd, compareDates]
      · cases hg : getField states "Target end" with
        | none => simp [tcFieldStep, hnone, hd, hg, compareDates]
        | some v => simp [tcFieldStep, hnone, hd, hg, compareDates]
    · by_cases hd : day = creationDay
      · simp [tcFieldStep, hnone, hd, compareDates]
      · cases hg : getField states "Fix Version/s" with
        | none => simp [tcFieldStep, hnone, hd, hg, compareDates]
        | some v => simp [tcFieldStep, hnone, hd, hg, compareDates]
  · intro days states
    exact tcStatesAfter_getField creationDay issueKey relevant f hf days states
  · intro states a v nr hday hg hp h22
    rcases hf with rfl | rfl
    · simp [tcFieldStep, hp, hday, hg, h22, compareDates]
    · cases hte : getField states "Target end" with
      | none => simp [tcFieldStep, hp, hday, hg, hte, h22, compareDates]
      | some st0 =>
        by_cases hcont : (dateLe nr.1 st0.2.2 && dateLe st0.2.2 nr.2) = true
        · simp [tcFieldStep, hp, hday, hg, hte, hcont, h22, compareDates]
        · simp [tcFieldStep, hp, hday, hg, hte, hcont, h22, compareDates]

/-- C10 witness: the fixture value garbage parses to no date, and its
observation on the empty state emits nothing and changes nothing. -/
theorem C10_witness :
    parseForField "Target end" (some "garbage") = none ∧
    tcFieldStep "2025-01-01" "K-1" "2025-02-02" initTCStates "Target end" (some actC10bad) =
      (none, initTCStates) :=
  ⟨by decide,
   (C10_unparseable_leaves_state "2025-01-01" "K-1" "2025-02-02" "Target end" []
     (Or.inl rfl)).1 initTCStates actC10bad (by decide)⟩

end EpicsAnalyzer
